import Mathlib

/-!
A verification development for a small informed-search codebase: a generic
A* search engine (`astar`) over an abstract problem interface, together with
two concrete problem instances (a vacuum-cleaning world and the 8-puzzle).

The Python source is embedded shallowly:
* `AProblem` renders the `Problem` class interface; `do_action` returns
  `Option` because the concrete implementations can raise exceptions.
* The engine's mutable loop is rendered as a step function `stepLS` on a
  loop-state type `LS`, iterated with fuel (`runLS`); the Python loop has no
  fuel, so "the Python call returns r" is rendered as
  "`astar P fuel = some r` for suitable fuel", and a `none` result covers
  both exhausted fuel and a raised exception (`KeyError` etc.).
* `queue.PriorityQueue` over `(cost, state)` tuples is rendered as a list
  from which `popMin` removes a least element under the lexicographic order
  on `(cost, state)`; the problem supplies `stateLt`, the order Python uses
  on its state values for the tie-break.
* Python's `dict` is rendered as an association list with `tlookup` and
  `tinsert` (update in place, append if absent).
* The numbers produced by `action_cost` and `heuristic` are duck-typed in
  the source, so the engine is parametrised by a linearly ordered
  cancellative additive monoid `γ` of costs; the concrete vacuum instance
  computes with Python integers (`γ = ℤ`).
-/

namespace AStarVerif

/-- One record of the `revealed` best-known-cost table: predecessor state,
action used to reach this state, best known estimated total cost `f`, and
best known accumulated cost `g`.  The Python tuple is
`(pred_state, action, f, g)`; the initial state stores `(None, "", h, 0)`,
whose action slot is rendered as `none`. -/
structure Entry (σ α γ : Type) where
  pred : Option σ
  act : Option α
  f : γ
  g : γ
  deriving DecidableEq

/-- Dictionary lookup on an association list (Python `revealed[s]` and
`s in revealed`). -/
def tlookup {σ α γ : Type} [DecidableEq σ] : List (σ × Entry σ α γ) → σ → Option (Entry σ α γ)
  | [], _ => none
  | kv :: t, s => if kv.1 = s then some kv.2 else tlookup t s

/-- Dictionary write `revealed[s] = e`: replace the entry if the key is
present, append it otherwise. -/
def tinsert {σ α γ : Type} [DecidableEq σ] : List (σ × Entry σ α γ) → σ → Entry σ α γ → List (σ × Entry σ α γ)
  | [], s, e => [(s, e)]
  | kv :: t, s, e => if kv.1 = s then (s, e) :: t else kv :: tinsert t s e

/-- Remove a least element (under the strict order `lt`) from a list,
returning it and the remaining elements.  Models `PriorityQueue.get`:
`heapq` pops a least tuple under Python's tuple comparison. -/
def popMin {β : Type} (lt : β → β → Bool) : List β → Option (β × List β)
  | [] => none
  | x :: xs =>
    match popMin lt xs with
    | none => some (x, [])
    | some (m, rest) => if lt m x then some (m, x :: rest) else some (x, xs)

/-- The `Problem` interface of the source: initial state, legal actions,
transition function (`Option`: the implementations can raise), goal test,
action cost and heuristic.  `stateLt` is the strict order Python uses on
state values when the priority queue compares `(cost, state)` tuples with
equal cost. -/
structure AProblem (σ α γ : Type) where
  initial_state : σ
  available_actions : σ → List α
  do_action : σ → α → Option σ
  is_goal : σ → Bool
  action_cost : σ → α → γ
  heuristic : σ → γ
  stateLt : σ → σ → Bool

variable {σ α γ : Type}

section Engine

variable [DecidableEq σ] [LinearOrder γ] [AddCommMonoid γ]

/-- Python's comparison of two `(cost, state)` frontier tuples. -/
def frontierLt (P : AProblem σ α γ) (a b : γ × σ) : Bool :=
  decide (a.1 < b.1) || (decide (a.1 = b.1) && P.stateLt a.2 b.2)

/-- Processing of one action `p` in the expansion `for` loop of `astar`:
compute the successor and its costs, skip it when the table already holds an
entry whose `f` is at most the new one (`new_cost >= revealed[new_state][2]`),
otherwise push the successor and overwrite its table entry. -/
def expandStep (P : AProblem σ α γ) (curr : σ) (gCurr : γ)
    (acc : List (γ × σ) × List (σ × Entry σ α γ)) (p : α) :
    Option (List (γ × σ) × List (σ × Entry σ α γ)) :=
  match P.do_action curr p with
  | none => none
  | some ns =>
    match tlookup acc.2 ns with
    | some e =>
      if e.f ≤ P.action_cost curr p + gCurr + P.heuristic ns then some acc
      else
        some (acc.1 ++ [(P.action_cost curr p + gCurr + P.heuristic ns, ns)],
          tinsert acc.2 ns ⟨some curr, some p, P.action_cost curr p + gCurr + P.heuristic ns,
            P.action_cost curr p + gCurr⟩)
    | none =>
      some (acc.1 ++ [(P.action_cost curr p + gCurr + P.heuristic ns, ns)],
        tinsert acc.2 ns ⟨some curr, some p, P.action_cost curr p + gCurr + P.heuristic ns,
          P.action_cost curr p + gCurr⟩)

/-- The whole expansion `for` loop over the available actions. -/
def expandAll (P : AProblem σ α γ) (curr : σ) (gCurr : γ) :
    List α → List (γ × σ) × List (σ × Entry σ α γ) →
    Option (List (γ × σ) × List (σ × Entry σ α γ))
  | [], acc => some acc
  | p :: ps, acc =>
    match expandStep P curr gCurr acc p with
    | none => none
    | some acc' => expandAll P curr gCurr ps acc'

end Engine

/-- State of the `while` loop of `astar`: the frontier `q`, the table
`revealed`, the pop counter `x` and the current value of `curr_state`.
`halted` records how the loop exited: `found = true` for the `break` on a
goal pop, `found = false` for an emptied frontier.  `err` renders a raised
exception. -/
inductive LS (σ α γ : Type) where
  | running (q : List (γ × σ)) (rev : List (σ × Entry σ α γ)) (x : ℕ) (last : σ)
  | halted (found : Bool) (last : σ) (rev : List (σ × Entry σ α γ)) (x : ℕ)
  | err
  deriving DecidableEq

section Engine2

variable [DecidableEq σ] [LinearOrder γ] [AddCommMonoid γ]

/-- One iteration of the `while` loop of `astar`: pop a least frontier
entry, read the table's current `g` for it, break if it is a goal, and
otherwise expand all its available actions. -/
def stepLS (P : AProblem σ α γ) : LS σ α γ → LS σ α γ
  | .running q rev x last =>
    match popMin (frontierLt P) q with
    | none => .halted false last rev x
    | some ((_, s), q') =>
      match tlookup rev s with
      | none => .err
      | some e =>
        if P.is_goal s then .halted true s rev (x + 1)
        else
          match expandAll P s e.g (P.available_actions s) (q', rev) with
          | none => .err
          | some (q'', rev') => .running q'' rev' (x + 1) s
  | ls => ls

/-- The loop state just before the first iteration: the table holds the
initial state with predecessor `None`, `f = heuristic(initial)`, `g = 0`,
and the frontier holds `(heuristic(initial), initial)`. -/
def initLS (P : AProblem σ α γ) : LS σ α γ :=
  .running [(P.heuristic P.initial_state, P.initial_state)]
    [(P.initial_state, ⟨none, none, P.heuristic P.initial_state, 0⟩)]
    0 P.initial_state

/-- The loop state after `fuel` iterations (exited states are fixed points
of `stepLS`). -/
def runLS (P : AProblem σ α γ) (fuel : ℕ) : LS σ α γ :=
  (stepLS P)^[fuel] (initLS P)

/-- The path-reconstruction `while` loop: starting from `s`, follow
predecessor links, collecting the recorded actions, until a record with
predecessor `None` is reached; returns the terminal state together with the
action list already reversed into execution order.  A terminating run of
the Python loop visits pairwise distinct table keys, so fuel
`rev.length + 1` is exact: `none` corresponds to a Python `KeyError` or a
diverging cycle, and an entry holding a predecessor without an action never
arises. -/
def reconAux (rev : List (σ × Entry σ α γ)) : σ → ℕ → Option (σ × List α)
  | _, 0 => none
  | s, n + 1 =>
    match tlookup rev s with
    | none => none
    | some e =>
      match e.pred with
      | none => some (s, [])
      | some p =>
        match e.act with
        | none => none
        | some a => (reconAux rev p n).map (fun r => (r.1, r.2 ++ [a]))

/-- The `astar` function: run the loop, reconstruct the action list from
the final `curr_state`, and return it together with the printed statistics
(`x`, the number of pops, and `len(revealed)`, the number of recorded
states). -/
def astar (P : AProblem σ α γ) (fuel : ℕ) : Option (List α × ℕ × ℕ) :=
  match runLS P fuel with
  | .halted _ last rev x =>
    match reconAux rev last (rev.length + 1) with
    | some r => some (r.2, x, rev.length)
    | none => none
  | _ => none

/-- Executing an action list from a state: each step requires the action to
be among `available_actions` and applies `do_action`; returns the final
state and the accumulated action cost. -/
def runPlan [DecidableEq α] (P : AProblem σ α γ) : σ → List α → Option (σ × γ)
  | s, [] => some (s, 0)
  | s, a :: as =>
    if a ∈ P.available_actions s then
      match P.do_action s a with
      | none => none
      | some s' => (runPlan P s' as).map (fun r => (r.1, P.action_cost s a + r.2))
    else none

end Engine2

/-! ## Python list indexing

The 8-puzzle implementation indexes lists with possibly negative indices, so
list reads and writes are modelled with Python's semantics: an index `i`
with `-len ≤ i < 0` wraps to `len + i`, anything further out raises
`IndexError` (`none`). -/

/-- Resolve a Python list index: in-range indices and one negative wrap are
valid, everything else is an `IndexError`. -/
def pyIdx (len : ℕ) (i : ℤ) : Option ℕ :=
  if 0 ≤ i ∧ i < (len : ℤ) then some i.toNat
  else if -(len : ℤ) ≤ i ∧ i < 0 then some (i + len).toNat
  else none

/-- Python `l[i]`. -/
def pyGet {β : Type} (l : List β) (i : ℤ) : Option β :=
  (pyIdx l.length i).bind fun n => l.get? n

/-- Python `l[i] = v`. -/
def pySet {β : Type} (l : List β) (i : ℤ) (v : β) : Option (List β) :=
  (pyIdx l.length i).map fun n => l.set n v

/-! ## The vacuum-cleaning world (`VacuumProblem`)

States are `(robot, dirty)` pairs; `robot` is a Python integer and `dirty`
a tuple of booleans.  All numbers in this instance are Python integers, so
the cost type is `ℤ`. -/

/-- Python's `<` on booleans (`False < True`). -/
def boolLt (a b : Bool) : Bool := !a && b

/-- Python's `<` on tuples of booleans (lexicographic, a strict prefix is
smaller). -/
def listBoolLt : List Bool → List Bool → Bool
  | [], [] => false
  | [], _ :: _ => true
  | _ :: _, [] => false
  | a :: as, b :: bs => boolLt a b || (a = b && listBoolLt as bs)

/-- Python's `<` on vacuum states `(int, tuple of bool)`. -/
def vacuumStateLt (s t : ℤ × List Bool) : Bool :=
  decide (s.1 < t.1) || (decide (s.1 = t.1) && listBoolLt s.2 t.2)

/-- Models `VacuumProblem.do_action`: `Left` and `Right` clamp the robot
position, `Suck` clears the robot's cell, and any other action raises
`Exception('Invalid action')` (`none`). -/
def vacuum_do_action (s : ℤ × List Bool) (a : String) : Option (ℤ × List Bool) :=
  if a = "Left" then some (max (s.1 - 1) 0, s.2)
  else if a = "Suck" then (pySet s.2 s.1 false).map fun d => (s.1, d)
  else if a = "Right" then some (min (s.1 + 1) ((s.2.length : ℤ) - 1), s.2)
  else none

/-- Models `VacuumProblem.is_goal`: `not any(state[1])`. -/
def vacuum_is_goal (s : ℤ × List Bool) : Bool := !s.2.any id

/-- Models `VacuumProblem.heuristic`: `sum(state[1])`, the number of dirty
cells. -/
def vacuum_heuristic (s : ℤ × List Bool) : ℤ := (s.2.countP id : ℤ)

/-- The `VacuumProblem` instance: two rooms, robot at room 0, both rooms
dirty, uniform action cost 1. -/
def VacuumProblem : AProblem (ℤ × List Bool) String ℤ where
  initial_state := (0, [true, true])
  available_actions := fun _ => ["Left", "Suck", "Right"]
  do_action := vacuum_do_action
  is_goal := vacuum_is_goal
  action_cost := fun _ _ => 1
  heuristic := vacuum_heuristic
  stateLt := vacuumStateLt

/-! ## The 8-puzzle (`PuzzleProblem`)

States are 3×3 grids of Python integers, `0` marking the blank.  Only the
state-manipulation methods are needed here; the tile values are `ℤ`. -/

/-- Python `grid[i][j]`. -/
def pyGet2 (g : List (List ℤ)) (i j : ℤ) : Option ℤ :=
  (pyGet g i).bind fun row => pyGet row j

/-- Python `grid[i][j] = v`: fetch row `i`, mutate its cell `j`.  Both index
resolutions follow Python (negative wrap, `IndexError` otherwise). -/
def pySet2 (g : List (List ℤ)) (i j : ℤ) (v : ℤ) : Option (List (List ℤ)) :=
  (pyGet g i).bind fun row => (pySet row j v).bind fun row' => pySet g i row'

/-- Models `PuzzleProblem.find_position`: scan cells `(0,0) … (2,2)` in row
order for `num`.  An out-of-range access (`IndexError`) and the fall-through
`None` (which makes every caller raise at `position[0]`) are both rendered
as `none`. -/
def findPosition (state : List (List ℤ)) (num : ℤ) : Option (ℤ × ℤ) :=
  go state num [(0, 0), (0, 1), (0, 2), (1, 0), (1, 1), (1, 2), (2, 0), (2, 1), (2, 2)]
where
  /-- Scan the given cell coordinates in order. -/
  go (state : List (List ℤ)) (num : ℤ) : List (ℤ × ℤ) → Option (ℤ × ℤ)
    | [] => none
    | ij :: rest =>
      match pyGet2 state ij.1 ij.2 with
      | none => none
      | some v => if v = num then some ij else go state num rest

/-- Models `PuzzleProblem.available_actions`: `down` unless the blank is in
row 0, `up` unless row 2, `right` unless column 0, `left` unless column 2,
in that order. -/
def puzzle_available_actions (state : List (List ℤ)) : Option (List String) :=
  match findPosition state 0 with
  | none => none
  | some pos =>
    some ((if pos.1 ≠ 0 then ["down"] else []) ++ (if pos.1 ≠ 2 then ["up"] else []) ++
      (if pos.2 ≠ 0 then ["right"] else []) ++ (if pos.2 ≠ 2 then ["left"] else []))

/-- The simultaneous swap
`new_state[ti][tj], new_state[pos] = state[pos], new_state[ti][tj]` of
`PuzzleProblem.do_action`: Python evaluates both right-hand reads on the
unmodified copy first, then performs the two writes in order. -/
def puzzleSwap (state : List (List ℤ)) (pos : ℤ × ℤ) (ti tj : ℤ) : Option (List (List ℤ)) :=
  match pyGet2 state pos.1 pos.2 with
  | none => none
  | some v1 =>
    match pyGet2 state ti tj with
    | none => none
    | some v2 =>
      match pySet2 state ti tj v1 with
      | none => none
      | some s1 => pySet2 s1 pos.1 pos.2 v2

/-- Models `PuzzleProblem.do_action`: find the blank, then run whichever of
the four `if action == …` branches matches; when no branch matches, the
unmodified copy of the state is returned. -/
def puzzle_do_action (state : List (List ℤ)) (action : String) : Option (List (List ℤ)) :=
  match findPosition state 0 with
  | none => none
  | some pos =>
    if action = "up" then puzzleSwap state pos (pos.1 + 1) pos.2
    else if action = "down" then puzzleSwap state pos (pos.1 - 1) pos.2
    else if action = "left" then puzzleSwap state pos pos.1 (pos.2 + 1)
    else if action = "right" then puzzleSwap state pos pos.1 (pos.2 - 1)
    else some state

/-- Models `PuzzleProblem.is_goal`: equality with the goal grid. -/
def puzzle_is_goal (state : List (List ℤ)) : Bool :=
  state = [[0, 1, 2], [3, 4, 5], [6, 7, 8]]

/-! ## Crafted test problems

The spec itself asks for crafted instances ("verify on a crafted
disconnected state graph"), and the universally quantified theorems below
need concrete problems for their witnesses. -/

/-- A crafted problem in which no goal exists at all: states `0` and `1`,
one action `go` moving `0 → 1 → 1`, and `is_goal` constantly false. -/
def NoGoalProblem : AProblem ℕ String ℤ where
  initial_state := 0
  available_actions := fun _ => ["go"]
  do_action := fun s _ => some (min (s + 1) 1)
  is_goal := fun _ => false
  action_cost := fun _ _ => 1
  heuristic := fun _ => 0
  stateLt := fun a b => decide (a < b)

/-- A crafted problem whose initial state is already a goal. -/
def TrivialGoalProblem : AProblem ℕ String ℤ where
  initial_state := 0
  available_actions := fun _ => ["go"]
  do_action := fun s _ => some (s + 1)
  is_goal := fun _ => true
  action_cost := fun _ _ => 1
  heuristic := fun _ => 0
  stateLt := fun a b => decide (a < b)

/-- A two-state problem (`false → true`, one action of cost `1`, goal
`true`, heuristic `0`) with finitely many states, non-negative costs and an
admissible, consistent heuristic. -/
def TinyProblem : AProblem Bool Unit ℤ where
  initial_state := false
  available_actions := fun _ => [()]
  do_action := fun _ _ => some true
  is_goal := fun s => s
  action_cost := fun _ _ => 1
  heuristic := fun _ => 0
  stateLt := fun a b => !a && b

/-! ## Predicates used by the theorems -/

/-- The best-known-cost table carried by a loop state (`none` after a raised
exception). -/
def tableOf : LS σ α γ → Option (List (σ × Entry σ α γ))
  | .running _ rev _ _ => some rev
  | .halted _ _ rev _ => some rev
  | .err => none

/-- One table evolves into the other without shrinking: every recorded
state stays recorded, and its entry is either unchanged or replaced by one
with strictly smaller `f` and strictly smaller `g`. -/
def TableImproves [DecidableEq σ] [LT γ] (rev rev' : List (σ × Entry σ α γ)) : Prop :=
  ∀ s e, tlookup rev s = some e →
    ∃ e', tlookup rev' s = some e' ∧ (e' = e ∨ (e'.f < e.f ∧ e'.g < e.g))

/-- Every table entry satisfies `f = g + heuristic` (the code only ever
writes entries of this shape). -/
def FHInv [DecidableEq σ] [Add γ] (P : AProblem σ α γ) (rev : List (σ × Entry σ α γ)) : Prop :=
  ∀ s e, tlookup rev s = some e → e.f = e.g + P.heuristic s

/-- Every table record is justified: a record with the sentinel predecessor
is the initial record with `g = 0`, and any other record points to a
recorded predecessor through a genuinely available action whose stored `g`
dominates the predecessor's current `g` plus the action cost. -/
def EdgeInv [DecidableEq σ] [Zero γ] [Add γ] [LE γ] (P : AProblem σ α γ)
    (rev : List (σ × Entry σ α γ)) : Prop :=
  ∀ s e, tlookup rev s = some e →
    (e.pred = none → s = P.initial_state ∧ e.g = 0) ∧
    (∀ p, e.pred = some p → ∃ a, e.act = some a ∧ a ∈ P.available_actions p ∧
      P.do_action p a = some s ∧
      ∃ ep, tlookup rev p = some ep ∧ ep.g + P.action_cost p a ≤ e.g)

/-- Every recorded state's predecessor chain terminates (with some fuel). -/
def ChainTermInv [DecidableEq σ] (rev : List (σ × Entry σ α γ)) : Prop :=
  ∀ s e, tlookup rev s = some e →
    ∃ (n : ℕ) (t : σ) (plan : List α), reconAux rev s n = some (t, plan)

/-- The list of states visited by the path-reconstruction loop started at
`s` (used only in proofs, to bound the loop's fuel). -/
def chainStates [DecidableEq σ] (rev : List (σ × Entry σ α γ)) : σ → ℕ → Option (List σ)
  | _, 0 => none
  | s, n + 1 =>
    match tlookup rev s with
    | none => none
    | some e =>
      match e.pred with
      | none => some [s]
      | some p => (chainStates rev p n).map (s :: ·)

/-- Conjunction of the structural table invariants maintained by every
search run: entry shape (`f = g + h`), justified edges, and terminating
predecessor chains. -/
def TableInv [DecidableEq σ] [Zero γ] [Add γ] [LE γ] (P : AProblem σ α γ)
    (rev : List (σ × Entry σ α γ)) : Prop :=
  FHInv P rev ∧ EdgeInv P rev ∧ ChainTermInv rev

/-- The sentinel invariant: the initial state keeps its original record
(predecessor `None`, `f = heuristic(initial)`, `g = 0`), it is the only
record whose predecessor is the sentinel `None`, and every recorded `g` is
non-negative. -/
def InitRecordInv [DecidableEq σ] [Zero γ] [LE γ] (P : AProblem σ α γ)
    (rev : List (σ × Entry σ α γ)) : Prop :=
  tlookup rev P.initial_state = some ⟨none, none, P.heuristic P.initial_state, 0⟩ ∧
  (∀ s e, tlookup rev s = some e → e.pred = none → s = P.initial_state) ∧
  (∀ s e, tlookup rev s = some e → 0 ≤ e.g)

/-- Every frontier entry refers to a recorded state, and its priority is at
least the state's current `f = g + h` (priorities are `f` values at push
time, and `g` only decreases afterwards). -/
def FrontierInv [DecidableEq σ] [Add γ] [LE γ] (P : AProblem σ α γ)
    (q : List (γ × σ)) (rev : List (σ × Entry σ α γ)) : Prop :=
  ∀ pr ∈ q, ∃ e, tlookup rev pr.2 = some e ∧ e.g + P.heuristic pr.2 ≤ pr.1

/-- A state has been fully expanded at its current `g`: every available
action leads to a recorded successor whose `g` is at most `g` plus the
action cost. -/
def K2At [DecidableEq σ] [Add γ] [LE γ] (P : AProblem σ α γ)
    (rev : List (σ × Entry σ α γ)) (v : σ) (e : Entry σ α γ) : Prop :=
  ∀ a ∈ P.available_actions v, ∃ v' e', P.do_action v a = some v' ∧
    tlookup rev v' = some e' ∧ e'.g ≤ e.g + P.action_cost v a

/-- The frontier-coverage invariant: every recorded state either still has
a frontier entry whose priority is at most its current `f`, or is a
non-goal state that has been fully expanded at its current `g`. -/
def KInv [DecidableEq σ] [Add γ] [LE γ] (P : AProblem σ α γ)
    (q : List (γ × σ)) (rev : List (σ × Entry σ α γ)) : Prop :=
  ∀ v e, tlookup rev v = some e →
    (∃ prio, (prio, v) ∈ q ∧ prio ≤ e.g + P.heuristic v) ∨
    (K2At P rev v e ∧ P.is_goal v = false)

/-- Every recorded `g` is the exact cost of some executable plan from the
initial state to the recorded state. -/
def GExact [DecidableEq σ] [DecidableEq α] [LinearOrder γ] [AddCommMonoid γ] (P : AProblem σ α γ)
    (rev : List (σ × Entry σ α γ)) : Prop :=
  ∀ v e, tlookup rev v = some e →
    ∃ plan, runPlan P P.initial_state plan = some (v, e.g)

/-- The sum of all recorded `g` values (part of the termination measure). -/
def gSum [AddCommMonoid γ] (rev : List (σ × Entry σ α γ)) : γ :=
  (rev.map (fun kv => kv.2.g)).sum

/-- The invariant carried through the expansion loop of one popped state
`curr` whose `g` at pop time was `gc`: the frontier invariant, the
frontier-coverage invariant for every state other than `curr`, exactness of
recorded `g` values, the `f = g + h` entry shape, and stability of `curr`'s
own record. -/
def ExpInv [DecidableEq σ] [DecidableEq α] [LinearOrder γ] [AddCommMonoid γ]
    (P : AProblem σ α γ) (curr : σ) (gc : γ)
    (acc : List (γ × σ) × List (σ × Entry σ α γ)) : Prop :=
  FrontierInv P acc.1 acc.2 ∧
  (∀ v e, tlookup acc.2 v = some e → v ≠ curr →
    (∃ prio, (prio, v) ∈ acc.1 ∧ prio ≤ e.g + P.heuristic v) ∨
    (K2At P acc.2 v e ∧ P.is_goal v = false)) ∧
  GExact P acc.2 ∧ FHInv P acc.2 ∧
  (∃ ec, tlookup acc.2 curr = some ec ∧ ec.g = gc)

/-- All action costs of the states in `L` (the edge costs of a finite
closed state space), as a list. -/
def costList (P : AProblem σ α γ) (L : List σ) : List γ :=
  (L.map (fun s => (P.available_actions s).map (P.action_cost s))).join

/-- The number of distinct states of `L` not yet recorded in the table
(part of the termination measure). -/
def freshCount [DecidableEq σ] (L : List σ) (rev : List (σ × Entry σ α γ)) : ℕ :=
  (L.dedup.filter (fun s => (tlookup rev s).isNone)).length

/-- `L` is a closed finite state space: it contains the initial state and
is closed under every available action. -/
def ClosedSpace [DecidableEq σ] (P : AProblem σ α γ) (L : List σ) : Prop :=
  P.initial_state ∈ L ∧
  ∀ s ∈ L, ∀ a ∈ P.available_actions s, ∀ s', P.do_action s a = some s' → s' ∈ L

/-! ## Basic engine lemmas -/

section EngineLemmas

variable [DecidableEq σ] [LinearOrder γ] [AddCommMonoid γ]

theorem stepLS_halted (P : AProblem σ α γ) (f : Bool) (l : σ) (rev : List (σ × Entry σ α γ)) (x : ℕ) :
    stepLS P (.halted f l rev x) = .halted f l rev x := rfl

theorem iterate_stepLS_halted (P : AProblem σ α γ) (k : ℕ) (f : Bool) (l : σ)
    (rev : List (σ × Entry σ α γ)) (x : ℕ) :
    (stepLS P)^[k] (.halted f l rev x) = .halted f l rev x := by
  induction k with
  | zero => rfl
  | succ n ih => rw [Function.iterate_succ_apply, stepLS_halted, ih]

/-- Once the loop has exited, more fuel does not change the outcome. -/
theorem runLS_stable (P : AProblem σ α γ) {n : ℕ} {f : Bool} {l : σ}
    {rev : List (σ × Entry σ α γ)} {x : ℕ}
    (h : runLS P n = .halted f l rev x) {m : ℕ} (hnm : n ≤ m) :
    runLS P m = .halted f l rev x := by
  obtain ⟨k, rfl⟩ := Nat.exists_eq_add_of_le hnm
  unfold runLS at h ⊢
  rw [Nat.add_comm, Function.iterate_add_apply, h, iterate_stepLS_halted]

/-- A successful result of `astar` is preserved by adding fuel. -/
theorem astar_mono (P : AProblem σ α γ) {n : ℕ} {r : List α × ℕ × ℕ}
    (h : astar P n = some r) {m : ℕ} (hnm : n ≤ m) : astar P m = some r := by
  unfold astar at h ⊢
  cases hls : runLS P n with
  | running q rev x last => rw [hls] at h; simp at h
  | err => rw [hls] at h; simp at h
  | halted f l rev x => rw [runLS_stable P hls hnm]; rw [hls] at h; exact h

end EngineLemmas

/-! ## Association-list, frontier and expansion lemmas -/

section TableLemmas

variable [DecidableEq σ]

theorem tlookup_tinsert_self (t : List (σ × Entry σ α γ)) (s : σ) (e : Entry σ α γ) :
    tlookup (tinsert t s e) s = some e := by
  induction t with
  | nil => simp [tinsert, tlookup]
  | cons kv t ih =>
    by_cases h : kv.1 = s
    · simp [tinsert, tlookup, h]
    · simp [tinsert, tlookup, h, ih]

theorem tlookup_tinsert_ne (t : List (σ × Entry σ α γ)) {s s' : σ} (h : s' ≠ s) (e : Entry σ α γ) :
    tlookup (tinsert t s e) s' = tlookup t s' := by
  have hns : ¬ s = s' := fun hc => h hc.symm
  induction t with
  | nil => simp [tinsert, tlookup, hns]
  | cons kv t ih =>
    by_cases hk : kv.1 = s
    · have hk' : ¬ kv.1 = s' := by rw [hk]; exact hns
      simp [tinsert, tlookup, hk, hk', hns]
    · by_cases hk' : kv.1 = s'
      · simp [tinsert, tlookup, hk, hk', h]
      · simp [tinsert, tlookup, hk, hk', ih]

theorem tinsert_length_mem (t : List (σ × Entry σ α γ)) (s : σ) (e : Entry σ α γ)
    (h : (tlookup t s).isSome) : (tinsert t s e).length = t.length := by
  induction t with
  | nil => simp [tlookup] at h
  | cons kv t ih =>
    by_cases hk : kv.1 = s
    · simp [tinsert, hk]
    · simp only [tlookup, hk, if_neg hk] at h
      simp [tinsert, hk, ih h]

theorem tinsert_length_new (t : List (σ × Entry σ α γ)) (s : σ) (e : Entry σ α γ)
    (h : tlookup t s = none) : (tinsert t s e).length = t.length + 1 := by
  induction t with
  | nil => simp [tinsert]
  | cons kv t ih =>
    by_cases hk : kv.1 = s
    · simp [tlookup, hk] at h
    · simp only [tlookup, if_neg hk] at h
      simp [tinsert, hk, ih h]

/-- A successful path reconstruction ends at a record whose predecessor is
the sentinel `none`. -/
theorem reconAux_terminal (rev : List (σ × Entry σ α γ)) :
    ∀ (n : ℕ) (s t : σ) (plan : List α), reconAux rev s n = some (t, plan) →
      ∃ e, tlookup rev t = some e ∧ e.pred = none := by
  intro n
  induction n with
  | zero => intro s t plan h; simp [reconAux] at h
  | succ n ih =>
    intro s t plan h
    simp only [reconAux] at h
    split at h
    · simp at h
    · rename_i e heq
      split at h
      · rename_i hp
        simp at h
        obtain ⟨rfl, -⟩ := h
        exact ⟨e, heq, hp⟩
      · rename_i p hp
        split at h
        · simp at h
        · rename_i a ha
          cases hr : reconAux rev p n with
          | none => rw [hr] at h; simp at h
          | some r =>
            rw [hr] at h
            simp at h
            obtain ⟨rfl, -⟩ := h
            exact ih p r.1 r.2 hr

end TableLemmas

section PopMinLemmas

variable {β : Type}

theorem popMin_none_iff (lt : β → β → Bool) (l : List β) :
    popMin lt l = none ↔ l = [] := by
  cases l with
  | nil => simp [popMin]
  | cons x xs =>
    simp only [popMin]
    constructor
    · intro h
      cases hx : popMin lt xs with
      | none => rw [hx] at h; simp at h
      | some r => rw [hx] at h; obtain ⟨m, rest⟩ := r; by_cases hlt : lt m x <;> simp [hlt] at h
    · intro h; exact absurd h (by simp)

theorem popMin_perm (lt : β → β → Bool) :
    ∀ (l : List β) (m : β) (rest : List β), popMin lt l = some (m, rest) →
      l.Perm (m :: rest) := by
  intro l
  induction l with
  | nil => intro m rest h; simp [popMin] at h
  | cons x xs ih =>
    intro m rest h
    simp only [popMin] at h
    rcases hx : popMin lt xs with - | ⟨m', rest'⟩
    · rw [hx] at h
      dsimp only at h
      simp only [Option.some.injEq, Prod.mk.injEq] at h
      obtain ⟨rfl, rfl⟩ := h
      rw [(popMin_none_iff lt xs).mp hx]
    · rw [hx] at h
      dsimp only at h
      by_cases hlt : lt m' x = true
      · rw [if_pos hlt] at h
        simp only [Option.some.injEq, Prod.mk.injEq] at h
        obtain ⟨rfl, rfl⟩ := h
        exact ((ih m' rest' hx).cons x).trans (List.Perm.swap m' x rest')
      · rw [if_neg hlt] at h
        simp only [Option.some.injEq, Prod.mk.injEq] at h
        obtain ⟨rfl, rfl⟩ := h
        exact List.Perm.refl _

theorem popMin_mem_or (lt : β → β → Bool) {l : List β} {m : β} {rest : List β}
    (h : popMin lt l = some (m, rest)) {y : β} (hy : y ∈ l) : y = m ∨ y ∈ rest := by
  have := (popMin_perm lt l m rest h).mem_iff.mp hy
  simpa using this

theorem popMin_self_mem (lt : β → β → Bool) {l : List β} {m : β} {rest : List β}
    (h : popMin lt l = some (m, rest)) : m ∈ l :=
  (popMin_perm lt l m rest h).symm.mem_iff.mp (List.mem_cons_self m rest)

theorem popMin_rest_mem (lt : β → β → Bool) {l : List β} {m : β} {rest : List β}
    (h : popMin lt l = some (m, rest)) {y : β} (hy : y ∈ rest) : y ∈ l :=
  (popMin_perm lt l m rest h).symm.mem_iff.mp (List.mem_cons_of_mem m hy)

end PopMinLemmas

section FrontierLemmas

variable [DecidableEq σ] [LinearOrder γ] [AddCommMonoid γ]

/-- The popped frontier entry has minimal cost among all entries. -/
theorem popMin_cost_min (P : AProblem σ α γ) :
    ∀ (l : List (γ × σ)) (m : γ × σ) (rest : List (γ × σ)),
      popMin (frontierLt P) l = some (m, rest) → ∀ y ∈ l, m.1 ≤ y.1 := by
  intro l
  induction l with
  | nil => intro m rest h; simp [popMin] at h
  | cons x xs ih =>
    intro m rest h y hy
    simp only [popMin] at h
    rcases hx : popMin (frontierLt P) xs with - | ⟨m', rest'⟩
    · rw [hx] at h
      dsimp only at h
      simp only [Option.some.injEq, Prod.mk.injEq] at h
      obtain ⟨rfl, rfl⟩ := h
      rw [(popMin_none_iff _ xs).mp hx] at hy
      simp only [List.mem_singleton] at hy
      exact hy ▸ le_refl _
    · rw [hx] at h
      dsimp only at h
      by_cases hlt : frontierLt P m' x = true
      · rw [if_pos hlt] at h
        simp only [Option.some.injEq, Prod.mk.injEq] at h
        obtain ⟨rfl, rfl⟩ := h
        rcases List.mem_cons.mp hy with rfl | hy'
        · have hor : m'.1 < y.1 ∨ (m'.1 = y.1 ∧ P.stateLt m'.2 y.2 = true) := by
            simpa [frontierLt, Bool.or_eq_true, Bool.and_eq_true, decide_eq_true_eq] using hlt
          rcases hor with h1 | ⟨h1, -⟩
          · exact le_of_lt h1
          · exact le_of_eq h1
        · exact ih m' rest' hx y hy'
      · rw [if_neg hlt] at h
        simp only [Option.some.injEq, Prod.mk.injEq] at h
        obtain ⟨rfl, rfl⟩ := h
        rcases List.mem_cons.mp hy with rfl | hy'
        · exact le_refl _
        · have hmx : ¬ m'.1 < x.1 := by
            intro hc
            exact hlt (by simp [frontierLt, hc])
          exact le_trans (not_lt.mp hmx) (ih m' rest' hx y hy')

end FrontierLemmas

section ExpansionLemmas

variable [DecidableEq σ] [LinearOrder γ] [AddCommMonoid γ]

/-- Case analysis on the processing of one action: either nothing changed
(the duplicate-suppression skip), or the successor was pushed and its table
entry written; a pre-existing entry is only ever overwritten when the new
`f` is strictly smaller than the recorded one. -/
theorem expandStep_cases (P : AProblem σ α γ) (curr : σ) (gc : γ)
    (acc acc' : List (γ × σ) × List (σ × Entry σ α γ)) (p : α)
    (h : expandStep P curr gc acc p = some acc') :
    acc' = acc ∨
      ∃ ns, P.do_action curr p = some ns ∧
        acc'.1 = acc.1 ++ [(P.action_cost curr p + gc + P.heuristic ns, ns)] ∧
        acc'.2 = tinsert acc.2 ns
          ⟨some curr, some p, P.action_cost curr p + gc + P.heuristic ns,
            P.action_cost curr p + gc⟩ ∧
        ∀ e, tlookup acc.2 ns = some e →
          P.action_cost curr p + gc + P.heuristic ns < e.f := by
  simp only [expandStep] at h
  split at h
  · simp at h
  · rename_i ns hdo
    split at h
    · rename_i e hl
      split at h
      · cases h; exact Or.inl rfl
      · rename_i hle
        cases h
        right
        refine ⟨ns, hdo, rfl, rfl, ?_⟩
        intro e' he'
        rw [hl] at he'
        cases he'
        exact not_le.mp hle
    · rename_i hl
      cases h
      right
      refine ⟨ns, hdo, rfl, rfl, ?_⟩
      intro e' he'
      rw [hl] at he'
      exact absurd he' (by simp)

/-- Properties preserved by each action of the expansion loop are preserved
by the whole loop. -/
theorem expandAll_preserve (P : AProblem σ α γ) (curr : σ) (gc : γ)
    (Q : List (γ × σ) × List (σ × Entry σ α γ) → Prop) :
    ∀ (ps : List α),
      (∀ acc p acc', p ∈ ps → Q acc → expandStep P curr gc acc p = some acc' → Q acc') →
      ∀ (acc acc' : List (γ × σ) × List (σ × Entry σ α γ)),
        Q acc → expandAll P curr gc ps acc = some acc' → Q acc' := by
  intro ps
  induction ps with
  | nil => intro _ acc acc' hq h; simp only [expandAll] at h; cases h; exact hq
  | cons p ps ih =>
    intro hstep acc acc' hq h
    simp only [expandAll] at h
    cases hs : expandStep P curr gc acc p with
    | none => rw [hs] at h; simp at h
    | some acc₁ =>
      rw [hs] at h
      exact ih (fun a p' a' hp' => hstep a p' a' (List.mem_cons_of_mem p hp'))
        acc₁ acc' (hstep acc p acc₁ (List.mem_cons_self p ps) hq hs) h

/-- Induction principle for the search loop. -/
theorem runLS_ind (P : AProblem σ α γ) (Q : LS σ α γ → Prop)
    (h0 : Q (initLS P)) (hstep : ∀ ls, Q ls → Q (stepLS P ls)) :
    ∀ k, Q (runLS P k) := by
  intro k
  induction k with
  | zero => exact h0
  | succ n ih =>
    unfold runLS at ih ⊢
    rw [Function.iterate_succ_apply']
    exact hstep _ ih

end ExpansionLemmas

/-! ## Table-evolution invariants -/

section ImproveLemmas

variable [DecidableEq σ] [LinearOrderedCancelAddCommMonoid γ]

theorem tableImproves_refl (rev : List (σ × Entry σ α γ)) : TableImproves rev rev :=
  fun _ e he => ⟨e, he, Or.inl rfl⟩

theorem tableImproves_trans {r1 r2 r3 : List (σ × Entry σ α γ)}
    (h12 : TableImproves r1 r2) (h23 : TableImproves r2 r3) : TableImproves r1 r3 := by
  intro s e he
  obtain ⟨e', he', h1⟩ := h12 s e he
  obtain ⟨e'', he'', h2⟩ := h23 s e' he'
  refine ⟨e'', he'', ?_⟩
  rcases h1 with rfl | ⟨hf1, hg1⟩
  · exact h2
  · rcases h2 with rfl | ⟨hf2, hg2⟩
    · exact Or.inr ⟨hf1, hg1⟩
    · exact Or.inr ⟨lt_trans hf2 hf1, lt_trans hg2 hg1⟩

theorem expandStep_improves (P : AProblem σ α γ) (curr : σ) (gc : γ)
    (acc acc' : List (γ × σ) × List (σ × Entry σ α γ)) (p : α)
    (h : expandStep P curr gc acc p = some acc') (hfh : FHInv P acc.2) :
    TableImproves acc.2 acc'.2 ∧ FHInv P acc'.2 := by
  rcases expandStep_cases P curr gc acc acc' p h with rfl | ⟨ns, hdo, hq, hrev, hlt⟩
  · exact ⟨tableImproves_refl _, hfh⟩
  · constructor
    · intro s e he
      by_cases hs : s = ns
      · subst hs
        rw [hrev, tlookup_tinsert_self]
        refine ⟨_, Eq.refl _, Or.inr ⟨hlt e he, ?_⟩⟩
        have hef : e.f = e.g + P.heuristic s := hfh s e he
        have := hlt e he
        rw [hef] at this
        exact lt_of_add_lt_add_right this
      · rw [hrev, tlookup_tinsert_ne _ hs]
        exact ⟨e, he, Or.inl (Eq.refl _)⟩
    · intro s e he
      by_cases hs : s = ns
      · subst hs
        rw [hrev, tlookup_tinsert_self] at he
        cases he
        rfl
      · rw [hrev, tlookup_tinsert_ne _ hs] at he
        exact hfh s e he

/-- During expansion with any fixed `gCurr`, the table only improves, and
every entry keeps `f = g + heuristic`. -/
theorem expandAll_improves (P : AProblem σ α γ) (curr : σ) (gc : γ)
    (ps : List α) (acc acc' : List (γ × σ) × List (σ × Entry σ α γ))
    (hfh : FHInv P acc.2) (h : expandAll P curr gc ps acc = some acc') :
    TableImproves acc.2 acc'.2 ∧ FHInv P acc'.2 := by
  have := expandAll_preserve P curr gc
    (fun a => TableImproves acc.2 a.2 ∧ FHInv P a.2) ps
    (fun a p' a' _ hq hs =>
      ⟨tableImproves_trans hq.1 (expandStep_improves P curr gc a a' p' hs hq.2).1,
        (expandStep_improves P curr gc a a' p' hs hq.2).2⟩)
    acc acc' ⟨tableImproves_refl _, hfh⟩ h
  exact this

/-- The `f = g + heuristic` shape of table entries holds at every point of
every run. -/
theorem FHInv_runLS (P : AProblem σ α γ) (k : ℕ) :
    ∀ rev, tableOf (runLS P k) = some rev → FHInv P rev := by
  refine runLS_ind P (fun ls => ∀ rev, tableOf ls = some rev → FHInv P rev) ?_ ?_ k
  · intro rev h
    simp only [initLS, tableOf, Option.some.injEq] at h
    subst h
    intro s e he
    simp only [tlookup] at he
    by_cases hs : P.initial_state = s
    · subst hs
      rw [if_pos rfl] at he
      cases he
      simp
    · rw [if_neg hs] at he
      exact absurd he (by simp)
  · intro ls ih
    cases ls with
    | err => intro rev h; simp [stepLS, tableOf] at h
    | halted f l rev x => intro rev' h; exact ih rev' h
    | running q rev x last =>
      intro rev' h
      simp only [stepLS] at h
      rcases hpop : popMin (frontierLt P) q with - | ⟨⟨c, s⟩, q'⟩
      · rw [hpop] at h
        simp only [tableOf, Option.some.injEq] at h
        subst h
        exact ih rev (by simp [tableOf])
      · rw [hpop] at h
        dsimp only at h
        rcases hl : tlookup rev s with - | e
        · rw [hl] at h; simp [tableOf] at h
        · rw [hl] at h
          dsimp only at h
          by_cases hg : P.is_goal s = true
          · rw [if_pos hg] at h
            simp only [tableOf, Option.some.injEq] at h
            subst h
            exact ih rev (by simp [tableOf])
          · rw [if_neg hg] at h
            rcases hex : expandAll P s e.g (P.available_actions s) (q', rev) with - | ⟨q'', rev''⟩
            · rw [hex] at h; simp [tableOf] at h
            · rw [hex] at h
              simp only [tableOf, Option.some.injEq] at h
              subst h
              exact (expandAll_improves P s e.g _ _ _ (ih rev (by simp [tableOf])) hex).2

/-- From one loop iteration to the next the table never shrinks, and any
changed entry is strictly improved. -/
theorem stepLS_improves (P : AProblem σ α γ) (ls : LS σ α γ)
    (rev rev' : List (σ × Entry σ α γ)) (h : tableOf ls = some rev) (hfh : FHInv P rev)
    (h' : tableOf (stepLS P ls) = some rev') : TableImproves rev rev' := by
  cases ls with
  | err => simp [tableOf] at h
  | halted f l r x =>
    simp only [tableOf, Option.some.injEq] at h
    simp only [stepLS, tableOf, Option.some.injEq] at h'
    subst h; subst h'
    exact tableImproves_refl _
  | running q r x last =>
    simp only [tableOf, Option.some.injEq] at h
    subst h
    simp only [stepLS] at h'
    rcases hpop : popMin (frontierLt P) q with - | ⟨⟨c, s⟩, q'⟩
    · rw [hpop] at h'
      simp only [tableOf, Option.some.injEq] at h'
      subst h'
      exact tableImproves_refl _
    · rw [hpop] at h'
      dsimp only at h'
      rcases hl : tlookup r s with - | e
      · rw [hl] at h'; simp [tableOf] at h'
      · rw [hl] at h'
        dsimp only at h'
        by_cases hg : P.is_goal s = true
        · rw [if_pos hg] at h'
          simp only [tableOf, Option.some.injEq] at h'
          subst h'
          exact tableImproves_refl _
        · rw [if_neg hg] at h'
          rcases hex : expandAll P s e.g (P.available_actions s) (q', r) with - | ⟨q'', rev''⟩
          · rw [hex] at h'; simp [tableOf] at h'
          · rw [hex] at h'
            simp only [tableOf, Option.some.injEq] at h'
            subst h'
            exact (expandAll_improves P s e.g _ _ _ hfh hex).1

theorem expandStep_initRecord (P : AProblem σ α γ) (hc : ∀ s a, 0 ≤ P.action_cost s a)
    (curr : σ) (gc : γ) (hgc : 0 ≤ gc) (acc acc' : List (γ × σ) × List (σ × Entry σ α γ))
    (p : α) (h : expandStep P curr gc acc p = some acc') (hinv : InitRecordInv P acc.2) :
    InitRecordInv P acc'.2 := by
  rcases expandStep_cases P curr gc acc acc' p h with rfl | ⟨ns, hdo, hq, hrev, hlt⟩
  · exact hinv
  · have h0 : 0 ≤ P.action_cost curr p + gc := add_nonneg (hc curr p) hgc
    refine ⟨?_, ?_, ?_⟩
    · by_cases hns : ns = P.initial_state
      · subst hns
        have hcontra := hlt _ hinv.1
        have hge : P.heuristic P.initial_state ≤
            P.action_cost curr p + gc + P.heuristic P.initial_state :=
          le_add_of_nonneg_left h0
        exact absurd hcontra (not_lt.mpr hge)
      · rw [hrev, tlookup_tinsert_ne _ (fun hh => hns hh.symm)]
        exact hinv.1
    · intro s e he hpred
      by_cases hs : s = ns
      · subst hs
        rw [hrev, tlookup_tinsert_self] at he
        cases he
        simp at hpred
      · rw [hrev, tlookup_tinsert_ne _ hs] at he
        exact hinv.2.1 s e he hpred
    · intro s e he
      by_cases hs : s = ns
      · subst hs
        rw [hrev, tlookup_tinsert_self] at he
        cases he
        exact h0
      · rw [hrev, tlookup_tinsert_ne _ hs] at he
        exact hinv.2.2 s e he

/-- The sentinel invariant holds at every point of every run of a problem
with non-negative action costs. -/
theorem initRecord_runLS (P : AProblem σ α γ) (hc : ∀ s a, 0 ≤ P.action_cost s a) (k : ℕ) :
    ∀ rev, tableOf (runLS P k) = some rev → InitRecordInv P rev := by
  refine runLS_ind P (fun ls => ∀ rev, tableOf ls = some rev → InitRecordInv P rev) ?_ ?_ k
  · intro rev h
    simp only [initLS, tableOf, Option.some.injEq] at h
    subst h
    refine ⟨by simp [tlookup], ?_, ?_⟩
    · intro s e he hpred
      simp only [tlookup] at he
      by_cases hs : P.initial_state = s
      · exact hs.symm
      · rw [if_neg hs] at he
        exact absurd he (by simp)
    · intro s e he
      simp only [tlookup] at he
      by_cases hs : P.initial_state = s
      · rw [if_pos hs] at he
        cases he
        exact le_refl 0
      · rw [if_neg hs] at he
        exact absurd he (by simp)
  · intro ls ih
    cases ls with
    | err => intro rev h; simp [stepLS, tableOf] at h
    | halted f l rev x => intro rev' h; exact ih rev' h
    | running q rev x last =>
      intro rev' h
      simp only [stepLS] at h
      rcases hpop : popMin (frontierLt P) q with - | ⟨⟨c, s⟩, q'⟩
      · rw [hpop] at h
        simp only [tableOf, Option.some.injEq] at h
        subst h
        exact ih rev (by simp [tableOf])
      · rw [hpop] at h
        dsimp only at h
        rcases hl : tlookup rev s with - | e
        · rw [hl] at h; simp [tableOf] at h
        · rw [hl] at h
          dsimp only at h
          by_cases hg : P.is_goal s = true
          · rw [if_pos hg] at h
            simp only [tableOf, Option.some.injEq] at h
            subst h
            exact ih rev (by simp [tableOf])
          · rw [if_neg hg] at h
            rcases hex : expandAll P s e.g (P.available_actions s) (q', rev) with - | ⟨q'', rev''⟩
            · rw [hex] at h; simp [tableOf] at h
            · rw [hex] at h
              simp only [tableOf, Option.some.injEq] at h
              subst h
              have hinv : InitRecordInv P rev := ih rev (by simp [tableOf])
              exact expandAll_preserve P s e.g (fun a => InitRecordInv P a.2)
                (P.available_actions s)
                (fun a p' a' _ hq hs' =>
                  expandStep_initRecord P hc s e.g (hinv.2.2 s e hl) a a' p' hs' hq)
                (q', rev) (q'', rev'') hinv hex

end ImproveLemmas

/-! ## Chain lemmas: the reconstruction loop on acyclic tables -/

section ChainLemmas

variable [DecidableEq σ]

theorem tlookup_isSome_iff (rev : List (σ × Entry σ α γ)) (s : σ) :
    (tlookup rev s).isSome ↔ s ∈ rev.map Prod.fst := by
  induction rev with
  | nil => simp [tlookup]
  | cons kv t ih =>
    by_cases hk : kv.1 = s
    · simp [tlookup, hk]
    · simp only [tlookup, if_neg hk, List.map_cons, List.mem_cons]
      rw [ih]
      constructor
      · exact Or.inr
      · rintro (h | h)
        · exact absurd h.symm hk
        · exact h

theorem chainStates_mono (rev : List (σ × Entry σ α γ)) :
    ∀ (n : ℕ) (s : σ) (l : List σ), chainStates rev s n = some l →
      ∀ m, n ≤ m → chainStates rev s m = some l := by
  intro n
  induction n with
  | zero => intro s l h; simp [chainStates] at h
  | succ n ih =>
    intro s l h m hm
    obtain ⟨m', rfl⟩ : ∃ m', m = m' + 1 := ⟨m - 1, by omega⟩
    simp only [chainStates] at h
    split at h
    · simp at h
    · rename_i e heq
      split at h
      · rename_i hp
        simp only [Option.some.injEq] at h
        subst h
        simp [chainStates, heq, hp]
      · rename_i p hp
        cases hcp : chainStates rev p n with
        | none => rw [hcp] at h; simp at h
        | some lp =>
          rw [hcp] at h
          simp only [Option.map_some', Option.some.injEq] at h
          subst h
          simp only [chainStates, heq, hp, ih p lp hcp m' (by omega : n ≤ m'),
            Option.map_some']

theorem reconAux_mono (rev : List (σ × Entry σ α γ)) :
    ∀ (n : ℕ) (s : σ) (r : σ × List α), reconAux rev s n = some r →
      ∀ m, n ≤ m → reconAux rev s m = some r := by
  intro n
  induction n with
  | zero => intro s r h; simp [reconAux] at h
  | succ n ih =>
    intro s r h m hm
    obtain ⟨m', rfl⟩ : ∃ m', m = m' + 1 := ⟨m - 1, by omega⟩
    simp only [reconAux] at h
    split at h
    · simp at h
    · rename_i e heq
      split at h
      · rename_i hp
        simp only [Option.some.injEq] at h
        subst h
        simp [reconAux, heq, hp]
      · rename_i p hp
        split at h
        · simp at h
        · rename_i a ha
          cases hcp : reconAux rev p n with
          | none => rw [hcp] at h; simp at h
          | some rp =>
            rw [hcp] at h
            simp only [Option.map_some', Option.some.injEq] at h
            subst h
            simp only [reconAux, heq, hp, ha, hcp, ih p rp hcp m' (by omega : n ≤ m'),
              Option.map_some']

theorem reconAux_chainStates (rev : List (σ × Entry σ α γ)) :
    ∀ (n : ℕ) (s t : σ) (plan : List α), reconAux rev s n = some (t, plan) →
      ∃ l, chainStates rev s n = some l ∧ l.length = plan.length + 1 := by
  intro n
  induction n with
  | zero => intro s t plan h; simp [reconAux] at h
  | succ n ih =>
    intro s t plan h
    simp only [reconAux] at h
    simp only [chainStates]
    split at h
    · simp at h
    · rename_i e heq
      split at h
      · rename_i hp
        simp only [Option.some.injEq, Prod.mk.injEq] at h
        obtain ⟨-, rfl⟩ := h
        exact ⟨[s], rfl, rfl⟩
      · rename_i p hp
        split at h
        · simp at h
        · rename_i a ha
          cases hcp : reconAux rev p n with
          | none => rw [hcp] at h; simp at h
          | some rp =>
            rw [hcp] at h
            simp only [Option.map_some', Option.some.injEq, Prod.mk.injEq] at h
            obtain ⟨-, rfl⟩ := h
            obtain ⟨lp, hlp, hlen⟩ := ih p rp.1 rp.2 hcp
            refine ⟨s :: lp, by rw [hlp]; rfl, ?_⟩
            simp [hlen]

theorem chainStates_head (rev : List (σ × Entry σ α γ)) :
    ∀ (n : ℕ) (s : σ) (l : List σ), chainStates rev s n = some l →
      ∃ l', l = s :: l' := by
  intro n
  cases n with
  | zero => intro s l h; simp [chainStates] at h
  | succ n =>
    intro s l h
    simp only [chainStates] at h
    split at h
    · simp at h
    · split at h
      · simp only [Option.some.injEq] at h
        exact ⟨[], h.symm⟩
      · rename_i p hp
        cases hcp : chainStates rev p n with
        | none => rw [hcp] at h; simp at h
        | some lp =>
          rw [hcp] at h
          simp only [Option.map_some', Option.some.injEq] at h
          exact ⟨lp, h.symm⟩

theorem chainStates_mem_isSome (rev : List (σ × Entry σ α γ)) :
    ∀ (n : ℕ) (s : σ) (l : List σ), chainStates rev s n = some l →
      ∀ x ∈ l, (tlookup rev x).isSome := by
  intro n
  induction n with
  | zero => intro s l h; simp [chainStates] at h
  | succ n ih =>
    intro s l h x hx
    simp only [chainStates] at h
    split at h
    · simp at h
    · rename_i e heq
      split at h
      · simp only [Option.some.injEq] at h
        subst h
        simp only [List.mem_singleton] at hx
        subst hx
        simp [heq]
      · rename_i p hp
        cases hcp : chainStates rev p n with
        | none => rw [hcp] at h; simp at h
        | some lp =>
          rw [hcp] at h
          simp only [Option.map_some', Option.some.injEq] at h
          subst h
          rcases List.mem_cons.mp hx with rfl | hx'
          · simp [heq]
          · exact ih p lp hcp x hx'

theorem chainStates_tail_chains (rev : List (σ × Entry σ α γ)) :
    ∀ (n : ℕ) (s : σ) (l : List σ), chainStates rev s n = some l →
      ∀ x ∈ l.drop 1, ∃ m lx, chainStates rev x m = some lx ∧ lx.length < l.length := by
  intro n
  induction n with
  | zero => intro s l h; simp [chainStates] at h
  | succ n ih =>
    intro s l h x hx
    simp only [chainStates] at h
    split at h
    · simp at h
    · rename_i e heq
      split at h
      · simp only [Option.some.injEq] at h
        subst h
        simp at hx
      · rename_i p hp
        cases hcp : chainStates rev p n with
        | none => rw [hcp] at h; simp at h
        | some lp =>
          rw [hcp] at h
          simp only [Option.map_some', Option.some.injEq] at h
          subst h
          simp only [List.drop_one, List.tail_cons] at hx
          obtain ⟨lp', rfl⟩ := chainStates_head rev n p lp hcp
          rcases List.mem_cons.mp hx with rfl | hx'
          · exact ⟨n, x :: lp', hcp, by simp⟩
          · obtain ⟨m, lx, hm, hlen⟩ := ih p (p :: lp') hcp x (by simpa using hx')
            exact ⟨m, lx, hm, lt_trans hlen (by simp)⟩

theorem chainStates_nodup (rev : List (σ × Entry σ α γ)) :
    ∀ (n : ℕ) (s : σ) (l : List σ), chainStates rev s n = some l → l.Nodup := by
  intro n
  induction n with
  | zero => intro s l h; simp [chainStates] at h
  | succ n ih =>
    intro s l h
    have hhead := chainStates_head rev (n + 1) s l h
    obtain ⟨l', rfl⟩ := hhead
    simp only [chainStates] at h
    split at h
    · simp at h
    · rename_i e heq
      split at h
      · simp only [Option.some.injEq, List.cons.injEq] at h
        obtain ⟨-, rfl⟩ := h
        simp
      · rename_i p hp
        cases hcp : chainStates rev p n with
        | none => rw [hcp] at h; simp at h
        | some lp =>
          rw [hcp] at h
          simp only [Option.map_some', Option.some.injEq, List.cons.injEq] at h
          obtain ⟨-, rfl⟩ := h
          refine List.nodup_cons.mpr ⟨?_, ih p lp hcp⟩
          intro hmem
          have htail := chainStates_tail_chains rev (n + 1) s (s :: lp)
            (by
              simp only [chainStates, heq, hp, hcp]
              rfl)
            s (by simpa using hmem)
          obtain ⟨m, ls, hms, hlen⟩ := htail
          have h1 : chainStates rev s (max m (n + 1)) = some ls :=
            chainStates_mono rev m s ls hms _ (le_max_left _ _)
          have h2 : chainStates rev s (max m (n + 1)) = some (s :: lp) := by
            refine chainStates_mono rev (n + 1) s (s :: lp) ?_ _ (le_max_right _ _)
            simp only [chainStates, heq, hp, hcp]
            rfl
          rw [h1] at h2
          cases h2
          exact absurd hlen (lt_irrefl _)

theorem chainStates_length_le (rev : List (σ × Entry σ α γ)) {s : σ} {n : ℕ} {l : List σ}
    (h : chainStates rev s n = some l) : l.length ≤ rev.length := by
  have hsub : l ⊆ rev.map Prod.fst := by
    intro x hx
    exact (tlookup_isSome_iff rev x).mp (chainStates_mem_isSome rev n s l h x hx)
  have := ((chainStates_nodup rev n s l h).subperm hsub).length_le
  simpa using this

theorem reconAux_succ_base (rev : List (σ × Entry σ α γ)) (s : σ) (n : ℕ)
    {e : Entry σ α γ} (heq : tlookup rev s = some e) (hp : e.pred = none) :
    reconAux rev s (n + 1) = some (s, ([] : List α)) := by
  simp [reconAux, heq, hp]

theorem reconAux_succ_some (rev : List (σ × Entry σ α γ)) (s : σ) (n : ℕ)
    {e : Entry σ α γ} {p : σ} {a : α} (heq : tlookup rev s = some e)
    (hp : e.pred = some p) (ha : e.act = some a) :
    reconAux rev s (n + 1) = (reconAux rev p n).map (fun r => (r.1, r.2 ++ [a])) := by
  simp [reconAux, heq, hp, ha]

theorem reconAux_exact (rev : List (σ × Entry σ α γ)) :
    ∀ (n : ℕ) (s t : σ) (plan : List α), reconAux rev s n = some (t, plan) →
      reconAux rev s (plan.length + 1) = some (t, plan) := by
  intro n
  induction n with
  | zero => intro s t plan h; simp [reconAux] at h
  | succ n ih =>
    intro s t plan h
    simp only [reconAux] at h
    split at h
    · simp at h
    · rename_i e heq
      split at h
      · rename_i hp
        simp only [Option.some.injEq, Prod.mk.injEq] at h
        obtain ⟨rfl, rfl⟩ := h
        simp [reconAux, heq, hp]
      · rename_i p hp
        split at h
        · simp at h
        · rename_i a ha
          cases hcp : reconAux rev p n with
          | none => rw [hcp] at h; simp at h
          | some rp =>
            rw [hcp] at h
            simp only [Option.map_some', Option.some.injEq, Prod.mk.injEq] at h
            obtain ⟨rfl, rfl⟩ := h
            have hrec := ih p rp.1 rp.2 hcp
            have hlen : (rp.2 ++ [a]).length + 1 = rp.2.length + 1 + 1 := by simp
            rw [hlen, reconAux_succ_some rev s _ heq hp ha, hrec, Option.map_some']

/-- A terminating reconstruction needs no more fuel than `rev.length + 1`,
the fuel `astar` supplies. -/
theorem reconAux_fuel_bound (rev : List (σ × Entry σ α γ)) {s t : σ} {n : ℕ} {plan : List α}
    (h : reconAux rev s n = some (t, plan)) :
    reconAux rev s (rev.length + 1) = some (t, plan) := by
  obtain ⟨l, hl, hlen⟩ := reconAux_chainStates rev n s t plan h
  have hle : l.length ≤ rev.length := chainStates_length_le rev hl
  have := reconAux_exact rev n s t plan h
  exact reconAux_mono rev (plan.length + 1) s (t, plan) this (rev.length + 1) (by omega)

theorem reconAux_succ_actnone (rev : List (σ × Entry σ α γ)) (s : σ) (n : ℕ)
    {e : Entry σ α γ} {p : σ} (heq : tlookup rev s = some e)
    (hp : e.pred = some p) (ha : e.act = none) :
    reconAux rev s (n + 1) = (none : Option (σ × List α)) := by
  simp [reconAux, heq, hp, ha]

/-- Predecessor links whose chain avoids the overwritten key reconstruct
identically in the updated table. -/
theorem reconAux_agree (rev : List (σ × Entry σ α γ)) (ns : σ) (newe : Entry σ α γ) :
    ∀ (n : ℕ) (s : σ) (l : List σ), chainStates rev s n = some l → (∀ x ∈ l, x ≠ ns) →
      reconAux (tinsert rev ns newe) s n = reconAux rev s n := by
  intro n
  induction n with
  | zero => intro s l h; simp [chainStates] at h
  | succ n ih =>
    intro s l h havoid
    obtain ⟨l', rfl⟩ := chainStates_head rev (n + 1) s l h
    have hsns : s ≠ ns := havoid s (List.mem_cons_self s l')
    simp only [chainStates] at h
    split at h
    · simp at h
    · rename_i e heq
      have heq' : tlookup (tinsert rev ns newe) s = some e := by
        rw [tlookup_tinsert_ne _ hsns]
        exact heq
      split at h
      · rename_i hp
        rw [reconAux_succ_base rev s n heq hp, reconAux_succ_base _ s n heq' hp]
      · rename_i p hp
        cases hcp : chainStates rev p n with
        | none => rw [hcp] at h; simp at h
        | some lp =>
          rw [hcp] at h
          simp only [Option.map_some', Option.some.injEq, List.cons.injEq] at h
          obtain ⟨-, rfl⟩ := h
          have havoidp : ∀ x ∈ lp, x ≠ ns := fun x hx =>
            havoid x (List.mem_cons_of_mem s hx)
          cases ha : e.act with
          | none =>
            rw [reconAux_succ_actnone rev s n heq hp ha,
              reconAux_succ_actnone _ s n heq' hp ha]
          | some a =>
            rw [reconAux_succ_some rev s n heq hp ha,
              reconAux_succ_some _ s n heq' hp ha, ih p lp hcp havoidp]

end ChainLemmas

/-! ## Validity of reconstructed plans -/

section PlanLemmas

variable [DecidableEq σ] [DecidableEq α] [LinearOrderedCancelAddCommMonoid γ]

theorem runPlan_append (P : AProblem σ α γ) :
    ∀ (l1 : List α) (x y z : σ) (c1 c2 : γ) (l2 : List α),
      runPlan P x l1 = some (y, c1) → runPlan P y l2 = some (z, c2) →
      runPlan P x (l1 ++ l2) = some (z, c1 + c2) := by
  intro l1
  induction l1 with
  | nil =>
    intro x y z c1 c2 l2 h1 h2
    simp only [runPlan, Option.some.injEq, Prod.mk.injEq] at h1
    obtain ⟨rfl, rfl⟩ := h1
    rw [List.nil_append, zero_add]
    exact h2
  | cons a l1 ih =>
    intro x y z c1 c2 l2 h1 h2
    simp only [runPlan] at h1
    split at h1
    · rename_i hmem
      cases hdo : P.do_action x a with
      | none => rw [hdo] at h1; simp at h1
      | some x' =>
        rw [hdo] at h1
        dsimp only at h1
        cases hr : runPlan P x' l1 with
        | none => rw [hr] at h1; simp at h1
        | some rp =>
          rw [hr] at h1
          simp only [Option.map_some', Option.some.injEq, Prod.mk.injEq] at h1
          obtain ⟨rfl, rfl⟩ := h1
          have hih := ih x' rp.1 z rp.2 c2 l2 hr h2
          have hgoal : runPlan P x (a :: (l1 ++ l2)) =
              Option.map (fun r => (r.1, P.action_cost x a + r.2))
                (runPlan P x' (l1 ++ l2)) := by
            simp [runPlan, hmem, hdo]
          rw [List.cons_append, hgoal, hih, Option.map_some', add_assoc]
    · simp at h1

/-- A successful reconstruction from a justified table yields an executable
plan from the initial state to the reconstruction's start state, of cost at
most the recorded `g`. -/
theorem recon_valid_plan (P : AProblem σ α γ)
    (rev : List (σ × Entry σ α γ)) (hedge : EdgeInv P rev) :
    ∀ (n : ℕ) (s t : σ) (plan : List α) (e : Entry σ α γ),
      tlookup rev s = some e → reconAux rev s n = some (t, plan) →
      t = P.initial_state ∧ ∃ c, runPlan P P.initial_state plan = some (s, c) ∧ c ≤ e.g := by
  intro n
  induction n with
  | zero => intro s t plan e he h; simp [reconAux] at h
  | succ n ih =>
    intro s t plan e he h
    simp only [reconAux] at h
    split at h
    · rename_i heq
      rw [he] at heq
      exact absurd heq (by simp)
    · rename_i e' heq
      rw [he] at heq
      rw [Option.some.injEq] at heq
      subst heq
      split at h
      · rename_i hp
        simp only [Option.some.injEq, Prod.mk.injEq] at h
        obtain ⟨rfl, rfl⟩ := h
        obtain ⟨hs0, hg0⟩ := (hedge s e he).1 hp
        subst hs0
        exact ⟨rfl, 0, rfl, le_of_eq hg0.symm⟩
      · rename_i p hp
        split at h
        · simp at h
        · rename_i a ha
          cases hcp : reconAux rev p n with
          | none => rw [hcp] at h; simp at h
          | some rp =>
            rw [hcp] at h
            simp only [Option.map_some', Option.some.injEq, Prod.mk.injEq] at h
            obtain ⟨rfl, rfl⟩ := h
            obtain ⟨a', ha', hmem, hdo, ep, hep, hcost⟩ := (hedge s e he).2 p hp
            rw [ha] at ha'
            rw [Option.some.injEq] at ha'
            subst ha'
            obtain ⟨ht, c', hrun, hc'le⟩ := ih p rp.1 rp.2 ep hep hcp
            have hstep : runPlan P p [a] = some (s, P.action_cost p a + 0) := by
              simp [runPlan, hmem, hdo]
            refine ⟨ht, c' + (P.action_cost p a + 0),
              runPlan_append P rp.2 P.initial_state p s c' (P.action_cost p a + 0) [a]
                hrun hstep, ?_⟩
            rw [add_zero]
            exact le_trans (add_le_add_right hc'le _) hcost

/-- Along a predecessor chain the recorded `g` values are non-increasing
(towards the initial state). -/
theorem chain_g_descend (P : AProblem σ α γ) (hc : ∀ s a, 0 ≤ P.action_cost s a)
    (rev : List (σ × Entry σ α γ)) (hedge : EdgeInv P rev) :
    ∀ (n : ℕ) (s : σ) (l : List σ) (es : Entry σ α γ), tlookup rev s = some es →
      chainStates rev s n = some l → ∀ x ∈ l, ∃ ex, tlookup rev x = some ex ∧ ex.g ≤ es.g := by
  intro n
  induction n with
  | zero => intro s l es he h; simp [chainStates] at h
  | succ n ih =>
    intro s l es he h x hx
    simp only [chainStates] at h
    split at h
    · rename_i heq
      rw [he] at heq
      exact absurd heq (by simp)
    · rename_i e' heq
      rw [he] at heq
      rw [Option.some.injEq] at heq
      subst heq
      split at h
      · rename_i hp
        simp only [Option.some.injEq] at h
        subst h
        simp only [List.mem_singleton] at hx
        subst hx
        exact ⟨es, he, le_refl _⟩
      · rename_i p hp
        cases hcp : chainStates rev p n with
        | none => rw [hcp] at h; simp at h
        | some lp =>
          rw [hcp] at h
          simp only [Option.map_some', Option.some.injEq] at h
          subst h
          obtain ⟨a, -, -, -, ep, hep, hcost⟩ := (hedge s es he).2 p hp
          have hple : ep.g ≤ es.g :=
            le_trans (le_add_of_nonneg_right (hc p a)) hcost
          rcases List.mem_cons.mp hx with rfl | hx'
          · exact ⟨es, he, le_refl _⟩
          · obtain ⟨ex, hex, hexg⟩ := ih p lp ep hep hcp x hx'
            exact ⟨ex, hex, le_trans hexg hple⟩

/-- The chain-termination invariant survives a table write performed by the
engine: the new edge points from the overwritten state back to the expanded
state, whose own chain cannot pass through the overwritten state. -/
theorem chainTerm_tinsert (P : AProblem σ α γ) (hc : ∀ s a, 0 ≤ P.action_cost s a)
    (rev : List (σ × Entry σ α γ)) (hfh : FHInv P rev) (hedge : EdgeInv P rev)
    (hterm : ChainTermInv rev) (curr : σ) (gc : γ) (ec : Entry σ α γ)
    (hcurr : tlookup rev curr = some ec) (hgc : ec.g = gc) (p : α) (ns : σ)
    (hstrict : ∀ e, tlookup rev ns = some e →
      P.action_cost curr p + gc + P.heuristic ns < e.f) :
    ChainTermInv (tinsert rev ns
      ⟨some curr, some p, P.action_cost curr p + gc + P.heuristic ns,
        P.action_cost curr p + gc⟩) := by
  obtain ⟨n0, t0, plan0, hrec0⟩ := hterm curr ec hcurr
  obtain ⟨l0, hl0, -⟩ := reconAux_chainStates rev n0 curr t0 plan0 hrec0
  have havoid : ∀ x ∈ l0, x ≠ ns := by
    intro x hx hxe
    subst hxe
    have hsome := chainStates_mem_isSome rev n0 curr l0 hl0 x hx
    cases hens : tlookup rev x with
    | none => rw [hens] at hsome; simp at hsome
    | some e_ns =>
      obtain ⟨ex, hex, hexg⟩ := chain_g_descend P hc rev hedge n0 curr l0 ec hcurr hl0 x hx
      have h1 := hstrict ex hex
      rw [hfh x ex hex] at h1
      have h2 : P.action_cost curr p + gc < ex.g := lt_of_add_lt_add_right h1
      have h3 : gc ≤ P.action_cost curr p + gc := le_add_of_nonneg_left (hc curr p)
      rw [hgc] at hexg
      exact absurd (lt_of_le_of_lt h3 h2) (not_lt.mpr hexg)
  have hagree := reconAux_agree rev ns
    ⟨some curr, some p, P.action_cost curr p + gc + P.heuristic ns,
      P.action_cost curr p + gc⟩ n0 curr l0 hl0 havoid
  have hnewcurr : reconAux (tinsert rev ns
      ⟨some curr, some p, P.action_cost curr p + gc + P.heuristic ns,
        P.action_cost curr p + gc⟩) curr n0 = some (t0, plan0) := by
    rw [hagree]
    exact hrec0
  have hns : reconAux (tinsert rev ns
      ⟨some curr, some p, P.action_cost curr p + gc + P.heuristic ns,
        P.action_cost curr p + gc⟩) ns (n0 + 1) = some (t0, plan0 ++ [p]) := by
    rw [reconAux_succ_some _ ns n0 (tlookup_tinsert_self rev ns _) rfl rfl, hnewcurr]
    rfl
  have key : ∀ (n' : ℕ) (s' : σ), (∃ r, reconAux rev s' n' = some r) →
      ∃ (m : ℕ) (t : σ) (plan : List α), reconAux (tinsert rev ns
        ⟨some curr, some p, P.action_cost curr p + gc + P.heuristic ns,
          P.action_cost curr p + gc⟩) s' m = some (t, plan) := by
    intro n'
    induction n' with
    | zero => intro s' ⟨r, hr⟩; simp [reconAux] at hr
    | succ n' ih =>
      intro s' ⟨r, hr⟩
      by_cases hs' : s' = ns
      · subst hs'
        exact ⟨n0 + 1, t0, plan0 ++ [p], hns⟩
      · simp only [reconAux] at hr
        split at hr
        · simp at hr
        · rename_i e' heq
          have heq' : tlookup (tinsert rev ns
              ⟨some curr, some p, P.action_cost curr p + gc + P.heuristic ns,
                P.action_cost curr p + gc⟩) s' = some e' := by
            rw [tlookup_tinsert_ne _ hs']
            exact heq
          split at hr
          · rename_i hp
            exact ⟨1, s', [], reconAux_succ_base _ s' 0 heq' hp⟩
          · rename_i pa hp
            split at hr
            · simp at hr
            · rename_i a ha
              cases hcp : reconAux rev pa n' with
              | none => rw [hcp] at hr; simp at hr
              | some rp =>
                obtain ⟨m, t, plan, hm⟩ := ih pa ⟨rp, hcp⟩
                refine ⟨m + 1, t, plan ++ [a], ?_⟩
                rw [reconAux_succ_some _ s' m heq' hp ha, hm]
                rfl
  intro s' e' he'
  by_cases hs : s' = ns
  · subst hs
    exact ⟨n0 + 1, t0, plan0 ++ [p], hns⟩
  · rw [tlookup_tinsert_ne _ hs] at he'
    obtain ⟨n', t', plan', hrec'⟩ := hterm s' e' he'
    exact key n' s' ⟨(t', plan'), hrec'⟩

theorem expandStep_tableInv (P : AProblem σ α γ) (hc : ∀ s a, 0 ≤ P.action_cost s a)
    (curr : σ) (gc : γ) (acc acc' : List (γ × σ) × List (σ × Entry σ α γ)) (p : α)
    (hmem : p ∈ P.available_actions curr)
    (h : expandStep P curr gc acc p = some acc')
    (hW : TableInv P acc.2 ∧ ∃ ec, tlookup acc.2 curr = some ec ∧ ec.g = gc) :
    TableInv P acc'.2 ∧ ∃ ec, tlookup acc'.2 curr = some ec ∧ ec.g = gc := by
  obtain ⟨⟨hfh, hedge, hterm⟩, ec, hec, hecg⟩ := hW
  rcases expandStep_cases P curr gc acc acc' p h with rfl | ⟨ns, hdo, hq, hrev, hlt⟩
  · exact ⟨⟨hfh, hedge, hterm⟩, ec, hec, hecg⟩
  · have hnscurr : ns ≠ curr := by
      intro he
      subst he
      have h1 := hlt ec hec
      rw [hfh ns ec hec] at h1
      have h2 : P.action_cost ns p + gc < ec.g := lt_of_add_lt_add_right h1
      rw [hecg] at h2
      exact absurd (lt_of_le_of_lt (le_add_of_nonneg_left (hc ns p)) h2) (lt_irrefl _)
    have hfh' : FHInv P acc'.2 := (expandStep_improves P curr gc acc acc' p h hfh).2
    have hcurr' : tlookup acc'.2 curr = some ec := by
      rw [hrev, tlookup_tinsert_ne _ (fun hh => hnscurr hh.symm)]
      exact hec
    refine ⟨⟨hfh', ?_, ?_⟩, ec, hcurr', hecg⟩
    · intro s e he
      by_cases hs : s = ns
      · subst hs
        rw [hrev, tlookup_tinsert_self] at he
        cases he
        constructor
        · intro habs
          simp at habs
        · intro p' hp'
          rw [Option.some.injEq] at hp'
          subst hp'
          refine ⟨p, rfl, hmem, hdo, ec, hcurr', ?_⟩
          rw [hecg]
          exact le_of_eq (add_comm _ _)
      · rw [hrev, tlookup_tinsert_ne _ hs] at he
        refine ⟨fun hpn => ((hedge s e he).1 hpn), ?_⟩
        intro p' hp'
        obtain ⟨a, ha, hmem', hdo', ep, hep, hcost⟩ := (hedge s e he).2 p' hp'
        by_cases hp'ns : p' = ns
        · subst hp'ns
          have hltp := hlt ep hep
          rw [hfh p' ep hep] at hltp
          have hgp : P.action_cost curr p + gc < ep.g := lt_of_add_lt_add_right hltp
          refine ⟨a, ha, hmem', hdo', _, by rw [hrev]; exact tlookup_tinsert_self _ _ _, ?_⟩
          exact le_trans (add_le_add_right (le_of_lt hgp) _) hcost
        · refine ⟨a, ha, hmem', hdo', ep, ?_, hcost⟩
          rw [hrev, tlookup_tinsert_ne _ hp'ns]
          exact hep
    · rw [hrev]
      exact chainTerm_tinsert P hc acc.2 hfh hedge hterm curr gc ec hec hecg p ns hlt

/-- The structural table invariants hold at every point of every run of a
problem with non-negative action costs. -/
theorem tableInv_runLS (P : AProblem σ α γ) (hc : ∀ s a, 0 ≤ P.action_cost s a) (k : ℕ) :
    ∀ rev, tableOf (runLS P k) = some rev → TableInv P rev := by
  refine runLS_ind P (fun ls => ∀ rev, tableOf ls = some rev → TableInv P rev) ?_ ?_ k
  · intro rev h
    simp only [initLS, tableOf, Option.some.injEq] at h
    subst h
    refine ⟨?_, ?_, ?_⟩
    · intro s e he
      simp only [tlookup] at he
      by_cases hs : P.initial_state = s
      · rw [if_pos hs] at he
        cases he
        simp [hs]
      · rw [if_neg hs] at he
        exact absurd he (by simp)
    · intro s e he
      simp only [tlookup] at he
      by_cases hs : P.initial_state = s
      · rw [if_pos hs] at he
        cases he
        exact ⟨fun _ => ⟨hs.symm, rfl⟩, fun p hp => by simp at hp⟩
      · rw [if_neg hs] at he
        exact absurd he (by simp)
    · intro s e he
      simp only [tlookup] at he
      by_cases hs : P.initial_state = s
      · rw [if_pos hs] at he
        refine ⟨1, s, [],
          @reconAux_succ_base σ α γ _ _ s 0
            ⟨none, none, P.heuristic P.initial_state, 0⟩ (by simp [tlookup, hs]) rfl⟩
      · rw [if_neg hs] at he
        exact absurd he (by simp)
  · intro ls ih
    cases ls with
    | err => intro rev h; simp [stepLS, tableOf] at h
    | halted f l rev x => intro rev' h; exact ih rev' h
    | running q rev x last =>
      intro rev' h
      simp only [stepLS] at h
      rcases hpop : popMin (frontierLt P) q with - | ⟨⟨c, s⟩, q'⟩
      · rw [hpop] at h
        simp only [tableOf, Option.some.injEq] at h
        subst h
        exact ih rev (by simp [tableOf])
      · rw [hpop] at h
        dsimp only at h
        rcases hl : tlookup rev s with - | e
        · rw [hl] at h; simp [tableOf] at h
        · rw [hl] at h
          dsimp only at h
          by_cases hg : P.is_goal s = true
          · rw [if_pos hg] at h
            simp only [tableOf, Option.some.injEq] at h
            subst h
            exact ih rev (by simp [tableOf])
          · rw [if_neg hg] at h
            rcases hex : expandAll P s e.g (P.available_actions s) (q', rev) with - | ⟨q'', rev''⟩
            · rw [hex] at h; simp [tableOf] at h
            · rw [hex] at h
              simp only [tableOf, Option.some.injEq] at h
              subst h
              have hti : TableInv P rev := ih rev (by simp [tableOf])
              have := expandAll_preserve P s e.g
                (fun a => TableInv P a.2 ∧ ∃ ec, tlookup a.2 s = some ec ∧ ec.g = e.g)
                (P.available_actions s)
                (fun a p' a' hp' hq hs' => expandStep_tableInv P hc s e.g a a' p' hp' hs' hq)
                (q', rev) (q'', rev'') ⟨hti, e, hl, rfl⟩ hex
              exact this.1

/-- A loop exit through the `break` branch carries a state that satisfied
the goal test and is recorded in the table. -/
theorem haltedTrue_runLS (P : AProblem σ α γ) (k : ℕ) :
    ∀ (t : σ) (rev : List (σ × Entry σ α γ)) (x : ℕ),
      runLS P k = .halted true t rev x → P.is_goal t = true ∧ (tlookup rev t).isSome := by
  refine runLS_ind P
    (fun ls => ∀ t rev x, ls = .halted true t rev x →
      P.is_goal t = true ∧ (tlookup rev t).isSome) ?_ ?_ k
  · intro t rev x h
    exact absurd h (by simp [initLS])
  · intro ls ih
    cases ls with
    | err => intro t rev x h; exact absurd h (by simp [stepLS])
    | halted f l rev x => intro t rev' x' h; exact ih t rev' x' h
    | running q rev x last =>
      intro t rev' x' h
      simp only [stepLS] at h
      rcases hpop : popMin (frontierLt P) q with - | ⟨⟨c, s⟩, q'⟩
      · rw [hpop] at h
        simp only [LS.halted.injEq] at h
        exact absurd h.1 (by simp)
      · rw [hpop] at h
        dsimp only at h
        rcases hl : tlookup rev s with - | e
        · rw [hl] at h; simp at h
        · rw [hl] at h
          dsimp only at h
          by_cases hg : P.is_goal s = true
          · rw [if_pos hg] at h
            simp only [LS.halted.injEq] at h
            obtain ⟨-, rfl, rfl, -⟩ := h
            exact ⟨hg, by simp [hl]⟩
          · rw [if_neg hg] at h
            rcases hex : expandAll P s e.g (P.available_actions s) (q', rev) with - | ⟨q'', rev''⟩
            · rw [hex] at h; simp at h
            · rw [hex] at h; simp at h

end PlanLemmas

/-! ## Frontier-coverage invariants for the optimality proof -/

section OptimalityLemmas

variable [DecidableEq σ] [DecidableEq α] [LinearOrderedCancelAddCommMonoid γ]

/-- Refined case analysis on the processing of one action, keeping the
duplicate-suppression data in the skip case. -/
theorem expandStep_cases2 (P : AProblem σ α γ) (curr : σ) (gc : γ)
    (acc acc' : List (γ × σ) × List (σ × Entry σ α γ)) (p : α)
    (h : expandStep P curr gc acc p = some acc') :
    (∃ ns e, P.do_action curr p = some ns ∧ tlookup acc.2 ns = some e ∧
      e.f ≤ P.action_cost curr p + gc + P.heuristic ns ∧ acc' = acc) ∨
    (∃ ns, P.do_action curr p = some ns ∧
      acc'.1 = acc.1 ++ [(P.action_cost curr p + gc + P.heuristic ns, ns)] ∧
      acc'.2 = tinsert acc.2 ns
        ⟨some curr, some p, P.action_cost curr p + gc + P.heuristic ns,
          P.action_cost curr p + gc⟩ ∧
      ∀ e, tlookup acc.2 ns = some e →
        P.action_cost curr p + gc + P.heuristic ns < e.f) := by
  simp only [expandStep] at h
  split at h
  · simp at h
  · rename_i ns hdo
    split at h
    · rename_i e hl
      split at h
      · rename_i hle
        cases h
        exact Or.inl ⟨ns, e, hdo, hl, hle, rfl⟩
      · rename_i hle
        cases h
        right
        refine ⟨ns, hdo, rfl, rfl, ?_⟩
        intro e' he'
        rw [hl] at he'
        cases he'
        exact not_le.mp hle
    · rename_i hl
      cases h
      right
      refine ⟨ns, hdo, rfl, rfl, ?_⟩
      intro e' he'
      rw [hl] at he'
      exact absurd he' (by simp)

/-- One expansion step preserves the expansion invariant. -/
theorem expandStep_expInv (P : AProblem σ α γ) (hc : ∀ s a, 0 ≤ P.action_cost s a)
    (curr : σ) (gc : γ) (acc acc' : List (γ × σ) × List (σ × Entry σ α γ)) (p : α)
    (hmem : p ∈ P.available_actions curr)
    (h : expandStep P curr gc acc p = some acc')
    (hQ : ExpInv P curr gc acc) : ExpInv P curr gc acc' := by
  obtain ⟨hfr, hka, hge, hfh, ec, hec, hgc⟩ := hQ
  have hfh' : FHInv P acc'.2 := (expandStep_improves P curr gc acc acc' p h hfh).2
  rcases expandStep_cases P curr gc acc acc' p h with rfl | ⟨ns, hdo, hq1, hrev, hlt⟩
  · exact ⟨hfr, hka, hge, hfh, ec, hec, hgc⟩
  · have hnscurr : ns ≠ curr := by
      intro he
      subst he
      have h1 := hlt ec hec
      rw [hfh ns ec hec] at h1
      have h2 : P.action_cost ns p + gc < ec.g := lt_of_add_lt_add_right h1
      rw [hgc] at h2
      exact absurd (lt_of_le_of_lt (le_add_of_nonneg_left (hc ns p)) h2) (lt_irrefl _)
    refine ⟨?_, ?_, ?_, hfh', ec, ?_, hgc⟩
    · -- frontier invariant
      intro pr hpr
      rw [hq1] at hpr
      rcases List.mem_append.mp hpr with hpr' | hpr'
      · obtain ⟨e, he, hb⟩ := hfr pr hpr'
        by_cases hpr2 : pr.2 = ns
        · have he2 : tlookup acc.2 ns = some e := by rw [← hpr2]; exact he
          have hlt' := hlt e he2
          rw [hfh ns e he2] at hlt'
          have hglt : P.action_cost curr p + gc < e.g := lt_of_add_lt_add_right hlt'
          refine ⟨⟨some curr, some p, P.action_cost curr p + gc + P.heuristic ns,
            P.action_cost curr p + gc⟩, ?_, ?_⟩
          · rw [hrev, hpr2, tlookup_tinsert_self]
          · rw [hpr2]
            have hb' : e.g + P.heuristic ns ≤ pr.1 := by rw [← hpr2]; exact hb
            exact le_trans (add_le_add_right (le_of_lt hglt) _) hb'
        · refine ⟨e, ?_, hb⟩
          rw [hrev, tlookup_tinsert_ne _ hpr2]
          exact he
      · simp only [List.mem_singleton] at hpr'
        subst hpr'
        refine ⟨⟨some curr, some p, P.action_cost curr p + gc + P.heuristic ns,
          P.action_cost curr p + gc⟩, ?_, le_refl _⟩
        rw [hrev, tlookup_tinsert_self]
    · -- coverage away from curr
      intro v e' hv hvc
      by_cases hvns : v = ns
      · subst hvns
        rw [hrev, tlookup_tinsert_self] at hv
        cases hv
        left
        refine ⟨P.action_cost curr p + gc + P.heuristic v, ?_, le_refl _⟩
        rw [hq1]
        exact List.mem_append_right _ (List.mem_singleton.mpr rfl)
      · rw [hrev, tlookup_tinsert_ne _ hvns] at hv
        rcases hka v e' hv hvc with ⟨prio, hm, hb⟩ | ⟨hk2, hgl⟩
        · exact Or.inl ⟨prio, by rw [hq1]; exact List.mem_append_left _ hm, hb⟩
        · refine Or.inr ⟨?_, hgl⟩
          intro a ha
          obtain ⟨v', e₂, hdo2, hlook2, hb2⟩ := hk2 a ha
          by_cases hv'ns : v' = ns
          · subst hv'ns
            have hltv := hlt e₂ hlook2
            rw [hfh v' e₂ hlook2] at hltv
            have hglt : P.action_cost curr p + gc < e₂.g := lt_of_add_lt_add_right hltv
            refine ⟨v', _, hdo2, by rw [hrev]; exact tlookup_tinsert_self _ _ _, ?_⟩
            exact le_trans (le_of_lt hglt) hb2
          · refine ⟨v', e₂, hdo2, ?_, hb2⟩
            rw [hrev, tlookup_tinsert_ne _ hv'ns]
            exact hlook2
    · -- exactness
      intro v e' hv
      by_cases hvns : v = ns
      · subst hvns
        rw [hrev, tlookup_tinsert_self] at hv
        cases hv
        obtain ⟨planc, hplanc⟩ := hge curr ec hec
        have hstep : runPlan P curr [p] = some (v, P.action_cost curr p + 0) := by
          simp [runPlan, hmem, hdo]
        have happ := runPlan_append P planc P.initial_state curr v ec.g
          (P.action_cost curr p + 0) [p] hplanc hstep
        refine ⟨planc ++ [p], ?_⟩
        rw [happ]
        have : ec.g + (P.action_cost curr p + 0) = P.action_cost curr p + gc := by
          rw [hgc, add_zero, add_comm]
        rw [this]
      · rw [hrev, tlookup_tinsert_ne _ hvns] at hv
        exact hge v e' hv
    · rw [hrev, tlookup_tinsert_ne _ (fun hh => hnscurr hh.symm)]
      exact hec

/-- After the expansion loop, every processed action's successor is
recorded with `g` at most `gc` plus the action cost. -/
theorem expandAll_succBound (P : AProblem σ α γ) (curr : σ) (gc : γ) :
    ∀ (ps : List α) (acc acc' : List (γ × σ) × List (σ × Entry σ α γ)),
      FHInv P acc.2 → expandAll P curr gc ps acc = some acc' →
      ∀ a ∈ ps, ∃ v' e', P.do_action curr a = some v' ∧
        tlookup acc'.2 v' = some e' ∧ e'.g ≤ gc + P.action_cost curr a := by
  intro ps
  induction ps with
  | nil => intro acc acc' hfh h a ha; simp at ha
  | cons p ps ih =>
    intro acc acc' hfh h a ha
    simp only [expandAll] at h
    cases hs : expandStep P curr gc acc p with
    | none => rw [hs] at h; simp at h
    | some acc₁ =>
      rw [hs] at h
      have hfh₁ : FHInv P acc₁.2 := (expandStep_improves P curr gc acc acc₁ p hs hfh).2
      rcases List.mem_cons.mp ha with rfl | ha'
      · -- the head action: bound holds in acc₁ and persists
        have hbound : ∃ v' e', P.do_action curr a = some v' ∧
            tlookup acc₁.2 v' = some e' ∧ e'.g ≤ gc + P.action_cost curr a := by
          rcases expandStep_cases2 P curr gc acc acc₁ a hs with
            ⟨ns, e, hdo, hl, hle, rfl⟩ | ⟨ns, hdo, hq1, hrev, hlt⟩
          · refine ⟨ns, e, hdo, hl, ?_⟩
            rw [hfh ns e hl] at hle
            have := le_of_add_le_add_right hle
            rw [add_comm] at this
            exact this
          · refine ⟨ns, _, hdo, by rw [hrev]; exact tlookup_tinsert_self _ _ _, ?_⟩
            exact le_of_eq (add_comm _ _)
        obtain ⟨v', e', hdo', hl', hb'⟩ := hbound
        obtain ⟨e'', hl'', himp⟩ :=
          (expandAll_improves P curr gc ps acc₁ acc' hfh₁ h).1 v' e' hl'
        refine ⟨v', e'', hdo', hl'', ?_⟩
        rcases himp with rfl | ⟨-, hlt''⟩
        · exact hb'
        · exact le_trans (le_of_lt hlt'') hb'
      · exact ih acc₁ acc' hfh₁ h a ha'

/-- The frontier-coverage invariants hold at every running state of every
run of a problem with non-negative action costs. -/
theorem rinv_runLS (P : AProblem σ α γ) (hc : ∀ s a, 0 ≤ P.action_cost s a) (k : ℕ) :
    ∀ (q : List (γ × σ)) (rev : List (σ × Entry σ α γ)) (x : ℕ) (last : σ),
      runLS P k = .running q rev x last →
      FrontierInv P q rev ∧ KInv P q rev ∧ GExact P rev ∧ FHInv P rev := by
  refine runLS_ind P
    (fun ls => ∀ q rev x last, ls = .running q rev x last →
      FrontierInv P q rev ∧ KInv P q rev ∧ GExact P rev ∧ FHInv P rev) ?_ ?_ k
  · intro q rev x last h
    simp only [initLS, LS.running.injEq] at h
    obtain ⟨rfl, rfl, -, -⟩ := h
    have hlook : tlookup
        [(P.initial_state, (⟨none, none, P.heuristic P.initial_state, 0⟩ :
          Entry σ α γ))] P.initial_state =
        some ⟨none, none, P.heuristic P.initial_state, 0⟩ := by
      simp [tlookup]
    refine ⟨?_, ?_, ?_, ?_⟩
    · intro pr hpr
      simp only [List.mem_singleton] at hpr
      subst hpr
      exact ⟨⟨none, none, P.heuristic P.initial_state, 0⟩, hlook, le_of_eq (zero_add _)⟩
    · intro v e hv
      simp only [tlookup] at hv
      by_cases hs : P.initial_state = v
      · rw [if_pos hs] at hv
        cases hv
        subst hs
        exact Or.inl ⟨P.heuristic P.initial_state, List.mem_singleton.mpr rfl,
          le_of_eq (zero_add _).symm⟩
      · rw [if_neg hs] at hv
        exact absurd hv (by simp)
    · intro v e hv
      simp only [tlookup] at hv
      by_cases hs : P.initial_state = v
      · rw [if_pos hs] at hv
        cases hv
        subst hs
        exact ⟨[], rfl⟩
      · rw [if_neg hs] at hv
        exact absurd hv (by simp)
    · intro v e hv
      simp only [tlookup] at hv
      by_cases hs : P.initial_state = v
      · rw [if_pos hs] at hv
        cases hv
        subst hs
        simp
      · rw [if_neg hs] at hv
        exact absurd hv (by simp)
  · intro ls ih
    cases ls with
    | err => intro q rev x last h; exact absurd h (by simp [stepLS])
    | halted f l r x0 => intro q rev x last h; exact absurd h (by simp [stepLS])
    | running q0 rev0 x0 last0 =>
      intro q rev x last h
      obtain ⟨hfr0, hk0, hge0, hfh0⟩ := ih q0 rev0 x0 last0 rfl
      simp only [stepLS] at h
      rcases hpop : popMin (frontierLt P) q0 with - | ⟨⟨c, s⟩, q'⟩
      · rw [hpop] at h; exact absurd h (by simp)
      · rw [hpop] at h
        dsimp only at h
        rcases hl : tlookup rev0 s with - | e
        · rw [hl] at h; simp at h
        · rw [hl] at h
          dsimp only at h
          by_cases hg : P.is_goal s = true
          · rw [if_pos hg] at h; exact absurd h (by simp)
          · rw [if_neg hg] at h
            rcases hex : expandAll P s e.g (P.available_actions s) (q', rev0) with
              - | ⟨q₂, rev₂⟩
            · rw [hex] at h; simp at h
            · rw [hex] at h
              simp only [LS.running.injEq] at h
              obtain ⟨rfl, rfl, -, -⟩ := h
              have hpre : ExpInv P s e.g (q', rev0) := by
                refine ⟨?_, ?_, hge0, hfh0, e, hl, rfl⟩
                · intro pr hpr
                  exact hfr0 pr (popMin_rest_mem (frontierLt P) hpop hpr)
                · intro v e' hv hvc
                  rcases hk0 v e' hv with ⟨prio, hm, hb⟩ | hk2
                  · left
                    refine ⟨prio, ?_, hb⟩
                    rcases popMin_mem_or (frontierLt P) hpop hm with heq | hmem'
                    · exact absurd (congrArg Prod.snd heq) hvc
                    · exact hmem'
                  · exact Or.inr hk2
              have hpost : ExpInv P s e.g (q₂, rev₂) :=
                expandAll_preserve P s e.g (ExpInv P s e.g) (P.available_actions s)
                  (fun a p' a' hp' hq hs' => expandStep_expInv P hc s e.g a a' p' hp' hs' hq)
                  (q', rev0) (q₂, rev₂) hpre hex
              obtain ⟨hfr₂, hka₂, hge₂, hfh₂, ec, hec, hgc⟩ := hpost
              have hsb := expandAll_succBound P s e.g (P.available_actions s)
                (q', rev0) (q₂, rev₂) hfh0 hex
              refine ⟨hfr₂, ?_, hge₂, hfh₂⟩
              intro v e' hv
              by_cases hvs : v = s
              · subst hvs
                rw [hec] at hv
                cases hv
                refine Or.inr ⟨?_, by simpa using hg⟩
                intro a ha
                obtain ⟨v', e₃, hdo₃, hl₃, hb₃⟩ := hsb a ha
                refine ⟨v', e₃, hdo₃, hl₃, ?_⟩
                rw [hgc]
                exact hb₃
              · exact hka₂ v e' hv hvs

/-- Consistency telescopes along any executable plan. -/
theorem heuristic_telescope (P : AProblem σ α γ)
    (Hcons : ∀ s a s', a ∈ P.available_actions s → P.do_action s a = some s' →
      P.heuristic s ≤ P.action_cost s a + P.heuristic s') :
    ∀ (π : List α) (u t' : σ) (c₂ : γ), runPlan P u π = some (t', c₂) →
      P.heuristic u ≤ c₂ + P.heuristic t' := by
  intro π
  induction π with
  | nil =>
    intro u t' c₂ h
    simp only [runPlan, Option.some.injEq, Prod.mk.injEq] at h
    obtain ⟨rfl, rfl⟩ := h
    exact le_of_eq (zero_add _).symm
  | cons a π ih =>
    intro u t' c₂ h
    simp only [runPlan] at h
    split at h
    · rename_i hmem
      cases hdo : P.do_action u a with
      | none => rw [hdo] at h; simp at h
      | some u' =>
        rw [hdo] at h
        dsimp only at h
        cases hr : runPlan P u' π with
        | none => rw [hr] at h; simp at h
        | some rp =>
          rw [hr] at h
          simp only [Option.map_some', Option.some.injEq, Prod.mk.injEq] at h
          obtain ⟨rfl, rfl⟩ := h
          calc P.heuristic u ≤ P.action_cost u a + P.heuristic u' := Hcons u a u' hmem hdo
            _ ≤ P.action_cost u a + (rp.2 + P.heuristic rp.1) :=
              add_le_add_left (ih u' rp.1 rp.2 hr) _
            _ = P.action_cost u a + rp.2 + P.heuristic rp.1 := (add_assoc _ _ _).symm
    · simp at h

/-- The central bound: when a state `t` is popped with minimal priority,
the frontier-coverage invariant forces `g(t) + h(t)` below the `f`-value of
every executable plan to a goal, measured from any recorded state `u` whose
`g` is dominated. -/
theorem coverage_walk_bound (P : AProblem σ α γ)
    (Hcons : ∀ s a s', a ∈ P.available_actions s → P.do_action s a = some s' →
      P.heuristic s ≤ P.action_cost s a + P.heuristic s')
    (q : List (γ × σ)) (rev : List (σ × Entry σ α γ))
    (hfr : FrontierInv P q rev) (hk : KInv P q rev)
    (c : γ) (t : σ) (q' : List (γ × σ)) (e : Entry σ α γ)
    (hpop : popMin (frontierLt P) q = some ((c, t), q'))
    (he : tlookup rev t = some e) :
    ∀ (π₂ : List α) (u : σ) (cu : γ) (eu : Entry σ α γ), tlookup rev u = some eu →
      eu.g ≤ cu → ∀ (t' : σ) (c₂ : γ), runPlan P u π₂ = some (t', c₂) →
      P.is_goal t' = true → e.g + P.heuristic t ≤ cu + c₂ + P.heuristic t' := by
  have hft : e.g + P.heuristic t ≤ c := by
    obtain ⟨e', he', hb'⟩ := hfr (c, t) (popMin_self_mem (frontierLt P) hpop)
    rw [he] at he'
    cases he'
    exact hb'
  intro π₂
  induction π₂ with
  | nil =>
    intro u cu eu heu hgu t' c₂ h hg
    simp only [runPlan, Option.some.injEq, Prod.mk.injEq] at h
    obtain ⟨rfl, rfl⟩ := h
    rcases hk u eu heu with ⟨prio, hm, hb⟩ | ⟨-, hgl⟩
    · have h1 : c ≤ prio := popMin_cost_min P q (c, t) q' hpop (prio, u) hm
      have h2 : prio ≤ cu + P.heuristic u :=
        le_trans hb (add_le_add_right hgu _)
      calc e.g + P.heuristic t ≤ c := hft
        _ ≤ prio := h1
        _ ≤ cu + P.heuristic u := h2
        _ = cu + 0 + P.heuristic u := by rw [add_zero]
    · rw [hg] at hgl
      simp at hgl
  | cons a π₂ ih =>
    intro u cu eu heu hgu t' c₂ h hg
    rcases hk u eu heu with ⟨prio, hm, hb⟩ | ⟨hk2, -⟩
    · have h1 : c ≤ prio := popMin_cost_min P q (c, t) q' hpop (prio, u) hm
      have h2 : prio ≤ cu + P.heuristic u :=
        le_trans hb (add_le_add_right hgu _)
      have h3 : P.heuristic u ≤ c₂ + P.heuristic t' :=
        heuristic_telescope P Hcons (a :: π₂) u t' c₂ h
      calc e.g + P.heuristic t ≤ prio := le_trans hft h1
        _ ≤ cu + P.heuristic u := h2
        _ ≤ cu + (c₂ + P.heuristic t') := add_le_add_left h3 _
        _ = cu + c₂ + P.heuristic t' := (add_assoc _ _ _).symm
    · simp only [runPlan] at h
      split at h
      · rename_i hmem
        cases hdo : P.do_action u a with
        | none => rw [hdo] at h; simp at h
        | some u' =>
          rw [hdo] at h
          dsimp only at h
          cases hr : runPlan P u' π₂ with
          | none => rw [hr] at h; simp at h
          | some rp =>
            rw [hr] at h
            simp only [Option.map_some', Option.some.injEq, Prod.mk.injEq] at h
            obtain ⟨rfl, rfl⟩ := h
            obtain ⟨v', e₂, hdo₂, hl₂, hb₂⟩ := hk2 a hmem
            rw [hdo] at hdo₂
            rw [Option.some.injEq] at hdo₂
            subst hdo₂
            have hgu' : e₂.g ≤ cu + P.action_cost u a :=
              le_trans hb₂ (add_le_add_right hgu _)
            have := ih u' (cu + P.action_cost u a) e₂ hl₂ hgu' rp.1 rp.2 hr hg
            calc e.g + P.heuristic t
                ≤ cu + P.action_cost u a + rp.2 + P.heuristic rp.1 := this
              _ = cu + (P.action_cost u a + rp.2) + P.heuristic rp.1 := by
                  rw [add_assoc cu]
      · simp at h

/-- With an empty frontier, the coverage invariant rules out any executable
plan from a recorded state to a goal. -/
theorem empty_frontier_no_goal (P : AProblem σ α γ)
    (rev : List (σ × Entry σ α γ)) (hk : KInv P [] rev) :
    ∀ (π : List α) (u t' : σ) (c : γ), (tlookup rev u).isSome →
      runPlan P u π = some (t', c) → P.is_goal t' = true → False := by
  intro π
  induction π with
  | nil =>
    intro u t' c hu h hg
    simp only [runPlan, Option.some.injEq, Prod.mk.injEq] at h
    obtain ⟨rfl, -⟩ := h
    cases heu : tlookup rev u with
    | none => rw [heu] at hu; simp at hu
    | some eu =>
      rcases hk u eu heu with ⟨prio, hm, -⟩ | ⟨-, hgl⟩
      · simp at hm
      · rw [hg] at hgl; simp at hgl
  | cons a π ih =>
    intro u t' c hu h hg
    cases heu : tlookup rev u with
    | none => rw [heu] at hu; simp at hu
    | some eu =>
      rcases hk u eu heu with ⟨prio, hm, -⟩ | ⟨hk2, -⟩
      · simp at hm
      · simp only [runPlan] at h
        split at h
        · rename_i hmem
          cases hdo : P.do_action u a with
          | none => rw [hdo] at h; simp at h
          | some u' =>
            rw [hdo] at h
            dsimp only at h
            cases hr : runPlan P u' π with
            | none => rw [hr] at h; simp at h
            | some rp =>
              rw [hr] at h
              simp only [Option.map_some', Option.some.injEq, Prod.mk.injEq] at h
              obtain ⟨rfl, -⟩ := h
              obtain ⟨v', e₂, hdo₂, hl₂, -⟩ := hk2 a hmem
              rw [hdo] at hdo₂
              rw [Option.some.injEq] at hdo₂
              subst hdo₂
              exact ih u' rp.1 rp.2 (by simp [hl₂]) hr hg
        · simp at h

/-- A halting transition keeps the table of the last running state. -/
theorem stepLS_to_halted (P : AProblem σ α γ) (q0 : List (γ × σ))
    (rev0 : List (σ × Entry σ α γ)) (x0 : ℕ) (l0 : σ) (f : Bool) (t : σ)
    (rev : List (σ × Entry σ α γ)) (x : ℕ)
    (h : stepLS P (.running q0 rev0 x0 l0) = .halted f t rev x) :
    rev = rev0 ∧
    ((f = false ∧ q0 = [] ∧ t = l0 ∧ x = x0) ∨
      (f = true ∧ x = x0 + 1 ∧ P.is_goal t = true ∧
        ∃ c q' e, popMin (frontierLt P) q0 = some ((c, t), q') ∧
          tlookup rev0 t = some e)) := by
  simp only [stepLS] at h
  rcases hpop : popMin (frontierLt P) q0 with - | ⟨⟨c, s⟩, q'⟩
  · rw [hpop] at h
    simp only [LS.halted.injEq] at h
    obtain ⟨rfl, rfl, rfl, rfl⟩ := h
    exact ⟨rfl, Or.inl ⟨rfl, (popMin_none_iff _ _).mp hpop, rfl, rfl⟩⟩
  · rw [hpop] at h
    dsimp only at h
    rcases hl : tlookup rev0 s with - | e
    · rw [hl] at h; simp at h
    · rw [hl] at h
      dsimp only at h
      by_cases hg : P.is_goal s = true
      · rw [if_pos hg] at h
        simp only [LS.halted.injEq] at h
        obtain ⟨rfl, rfl, rfl, rfl⟩ := h
        exact ⟨rfl, Or.inr ⟨rfl, rfl, hg, c, q', e, rfl, hl⟩⟩
      · rw [if_neg hg] at h
        rcases hex : expandAll P s e.g (P.available_actions s) (q', rev0) with - | ⟨q₂, rev₂⟩
        · rw [hex] at h; simp at h
        · rw [hex] at h; simp at h

/-- Every halted run passes through a last running state one step earlier,
with the same table. -/
theorem runLS_halted_transition (P : AProblem σ α γ) :
    ∀ (fuel : ℕ) (f : Bool) (t : σ) (rev : List (σ × Entry σ α γ)) (x : ℕ),
      runLS P fuel = .halted f t rev x →
      ∃ (k : ℕ) (q : List (γ × σ)) (x0 : ℕ) (last : σ),
        runLS P k = .running q rev x0 last ∧
        stepLS P (.running q rev x0 last) = .halted f t rev x := by
  intro fuel
  induction fuel with
  | zero =>
    intro f t rev x h
    exact absurd h (by simp [runLS, initLS])
  | succ n ih =>
    intro f t rev x h
    have hstep : runLS P (n + 1) = stepLS P (runLS P n) := by
      unfold runLS
      rw [Function.iterate_succ_apply']
    rw [hstep] at h
    cases hn : runLS P n with
    | err => rw [hn] at h; exact absurd h (by simp [stepLS])
    | halted f' t' rev' x' =>
      rw [hn] at h
      rw [stepLS_halted] at h
      simp only [LS.halted.injEq] at h
      obtain ⟨rfl, rfl, rfl, rfl⟩ := h
      exact ih _ _ _ _ hn
    | running q0 rev0 x0 l0 =>
      rw [hn] at h
      obtain ⟨rfl, -⟩ := stepLS_to_halted P q0 rev0 x0 l0 f t rev x h
      exact ⟨n, q0, x0, l0, hn, h⟩

/-- Inversion of a successful `astar` call. -/
theorem astar_some_inv (P : AProblem σ α γ) (fuel : ℕ) (sol : List α) (x r : ℕ)
    (h : astar P fuel = some (sol, x, r)) :
    ∃ (f : Bool) (t : σ) (rev : List (σ × Entry σ α γ)) (tt : σ),
      runLS P fuel = .halted f t rev x ∧
      reconAux rev t (rev.length + 1) = some (tt, sol) ∧ r = rev.length := by
  unfold astar at h
  cases hls : runLS P fuel with
  | running q rev x' last => rw [hls] at h; simp at h
  | err => rw [hls] at h; simp at h
  | halted f t rev x' =>
    rw [hls] at h
    dsimp only at h
    cases hrec : reconAux rev t (rev.length + 1) with
    | none => rw [hrec] at h; simp at h
    | some rp =>
      rw [hrec] at h
      dsimp only at h
      simp only [Option.some.injEq, Prod.mk.injEq] at h
      obtain ⟨rfl, rfl, rfl⟩ := h
      exact ⟨f, t, rev, rp.1, rfl, hrec, rfl⟩

/-- Soundness of the engine under an admissible, consistent heuristic: any
successful search result is an executable plan to a goal whose cost is
minimal among all executable goal plans. -/
theorem astar_sound_optimal (P : AProblem σ α γ)
    (hc : ∀ s a, 0 ≤ P.action_cost s a)
    (Hh0 : ∀ s, 0 ≤ P.heuristic s)
    (Hcons : ∀ s a s', a ∈ P.available_actions s → P.do_action s a = some s' →
      P.heuristic s ≤ P.action_cost s a + P.heuristic s')
    (Hadm : ∀ s (π : List α) t c, runPlan P s π = some (t, c) → P.is_goal t = true →
      P.heuristic s ≤ c)
    (Hreach : ∃ π t c, runPlan P P.initial_state (π : List α) = some (t, c) ∧
      P.is_goal t = true) :
    ∀ (fuel : ℕ) (sol : List α) (x r : ℕ), astar P fuel = some (sol, x, r) →
      ∃ t cs, runPlan P P.initial_state sol = some (t, cs) ∧ P.is_goal t = true ∧
        ∀ (π : List α) t' c', runPlan P P.initial_state π = some (t', c') →
          P.is_goal t' = true → cs ≤ c' := by
  intro fuel sol x r ha
  obtain ⟨f, t, rev, tt, hls, hrec, rfl⟩ := astar_some_inv P fuel sol x r ha
  obtain ⟨k, q, x0, last, hk_run, hk_step⟩ := runLS_halted_transition P fuel f t rev x hls
  obtain ⟨hfr, hkinv, hge, hfh⟩ := rinv_runLS P hc k q rev x0 last hk_run
  have hinit := (initRecord_runLS P hc k rev (by rw [hk_run]; rfl)).1
  obtain ⟨-, hcases⟩ := stepLS_to_halted P q rev x0 last f t rev x hk_step
  rcases hcases with ⟨-, hq0, -, -⟩ | ⟨-, -, hg, c, q', e, hpop, hl⟩
  · exfalso
    subst hq0
    obtain ⟨π, tg, cg, hπ, hgg⟩ := Hreach
    exact empty_frontier_no_goal P rev hkinv π P.initial_state tg cg
      (by simp [hinit]) hπ hgg
  · have hti := tableInv_runLS P hc k rev (by rw [hk_run]; rfl)
    obtain ⟨-, cs, hrun, hcse⟩ :=
      recon_valid_plan P rev hti.2.1 (rev.length + 1) t tt sol e hl hrec
    have hbound : ∀ (π : List α) t' c', runPlan P P.initial_state π = some (t', c') →
        P.is_goal t' = true → e.g ≤ c' := by
      intro π t' c' hπ hg'
      have hw := coverage_walk_bound P Hcons q rev hfr hkinv c t q' e hpop hl π
        P.initial_state 0 ⟨none, none, P.heuristic P.initial_state, 0⟩ hinit
        (le_refl 0) t' c' hπ hg'
      have h1 : e.g ≤ e.g + P.heuristic t := le_add_of_nonneg_right (Hh0 t)
      have h2 : P.heuristic t' ≤ 0 := Hadm t' [] t' 0 rfl hg'
      calc e.g ≤ e.g + P.heuristic t := h1
        _ ≤ 0 + c' + P.heuristic t' := hw
        _ ≤ 0 + c' + 0 := add_le_add_left h2 _
        _ = c' := by rw [add_zero, zero_add]
    exact ⟨t, cs, hrun, hg, fun π t' c' hπ hg' =>
      le_trans hcse (hbound π t' c' hπ hg')⟩

end OptimalityLemmas

/-! ## Termination lemmas: on a finite closed state space the loop halts -/

section TerminationLemmas

variable [DecidableEq σ] [DecidableEq α] [LinearOrderedCancelAddCommMonoid γ]

/-- With non-negative action costs, every executable plan has non-negative
total cost. -/
theorem runPlan_cost_nonneg (P : AProblem σ α γ) (hc : ∀ s a, 0 ≤ P.action_cost s a) :
    ∀ (s : σ) (π : List α) (t : σ) (c : γ), runPlan P s π = some (t, c) → 0 ≤ c := by
  intro s π
  induction π generalizing s with
  | nil =>
    intro t c h
    simp only [runPlan, Option.some.injEq, Prod.mk.injEq] at h
    exact h.2 ▸ le_refl 0
  | cons a as ih =>
    intro t c h
    simp only [runPlan] at h
    split at h
    · cases hdo : P.do_action s a with
      | none => rw [hdo] at h; simp at h
      | some s' =>
        rw [hdo] at h
        dsimp only at h
        cases hr : runPlan P s' as with
        | none => rw [hr] at h; simp at h
        | some r =>
          rw [hr, Option.map_some'] at h
          simp only [Option.some.injEq, Prod.mk.injEq] at h
          obtain ⟨-, rfl⟩ := h
          exact add_nonneg (hc s a) (ih s' r.1 r.2 hr)
    · simp at h

theorem tlookup_mem (t : List (σ × Entry σ α γ)) (s : σ) (e : Entry σ α γ)
    (h : tlookup t s = some e) : (s, e) ∈ t := by
  induction t with
  | nil => simp [tlookup] at h
  | cons kv t ih =>
    by_cases hk : kv.1 = s
    · simp only [tlookup, if_pos hk] at h
      cases h
      subst hk
      exact List.mem_cons_self _ _
    · simp only [tlookup, if_neg hk] at h
      exact List.mem_cons_of_mem _ (ih h)

theorem mem_tinsert (t : List (σ × Entry σ α γ)) (s : σ) (e : Entry σ α γ) :
    ∀ kv ∈ tinsert t s e, kv = (s, e) ∨ kv ∈ t := by
  induction t with
  | nil => intro kv hkv; simp [tinsert] at hkv; exact Or.inl hkv
  | cons kv' t ih =>
    intro kv hkv
    by_cases hk : kv'.1 = s
    · simp only [tinsert, if_pos hk, List.mem_cons] at hkv
      rcases hkv with rfl | h
      · exact Or.inl rfl
      · exact Or.inr (List.mem_cons_of_mem _ h)
    · simp only [tinsert, if_neg hk, List.mem_cons] at hkv
      rcases hkv with rfl | h
      · exact Or.inr (List.mem_cons_self _ _)
      · rcases ih kv h with h' | h'
        · exact Or.inl h'
        · exact Or.inr (List.mem_cons_of_mem _ h')

/-- The sum of all recorded `g` values lies in any additive submonoid
containing each of them. -/
theorem gSum_mem (S : AddSubmonoid γ) (rev : List (σ × Entry σ α γ))
    (h : ∀ kv ∈ rev, kv.2.g ∈ S) : gSum rev ∈ S := by
  refine AddSubmonoid.list_sum_mem S ?_
  intro x hx
  simp only [List.mem_map] at hx
  obtain ⟨kv, hkv, rfl⟩ := hx
  exact h kv hkv

/-- Overwriting a recorded entry with one of strictly smaller `g` strictly
decreases the sum of recorded `g` values. -/
theorem gSum_tinsert_lt (t : List (σ × Entry σ α γ)) (s : σ) (e e' : Entry σ α γ)
    (hl : tlookup t s = some e) (hlt : e'.g < e.g) :
    gSum (tinsert t s e') < gSum t := by
  induction t with
  | nil => simp [tlookup] at hl
  | cons kv t ih =>
    by_cases hk : kv.1 = s
    · simp only [tlookup, if_pos hk] at hl
      cases hl
      simp only [tinsert, if_pos hk, gSum, List.map_cons, List.sum_cons]
      exact add_lt_add_right hlt _
    · simp only [tlookup, if_neg hk] at hl
      simp only [tinsert, if_neg hk, gSum, List.map_cons, List.sum_cons]
      exact add_lt_add_left (ih hl) _

/-- Inserting never increases the number of unrecorded states of `L`. -/
theorem freshCount_tinsert_le (L : List σ) (t : List (σ × Entry σ α γ)) (s : σ)
    (e : Entry σ α γ) : freshCount L (tinsert t s e) ≤ freshCount L t := by
  refine List.Sublist.length_le (List.monotone_filter_right _ ?_)
  intro v hv
  by_cases hvs : v = s
  · subst hvs
    rw [tlookup_tinsert_self] at hv
    simp at hv
  · rwa [tlookup_tinsert_ne _ hvs] at hv

/-- Overwriting an already recorded state leaves the number of unrecorded
states of `L` unchanged. -/
theorem freshCount_tinsert_mem (L : List σ) (t : List (σ × Entry σ α γ)) (s : σ)
    (e : Entry σ α γ) (h : (tlookup t s).isSome) :
    freshCount L (tinsert t s e) = freshCount L t := by
  unfold freshCount
  congr 1
  refine List.filter_congr ?_
  intro v hv
  by_cases hvs : v = s
  · subst hvs
    rw [tlookup_tinsert_self]
    cases hl : tlookup t v with
    | none => rw [hl] at h; simp at h
    | some e' => simp [hl]
  · rw [tlookup_tinsert_ne _ hvs]

/-- Recording a state of `L` for the first time strictly decreases the
number of unrecorded states of `L`. -/
theorem freshCount_tinsert_new (L : List σ) (t : List (σ × Entry σ α γ)) (s : σ)
    (e : Entry σ α γ) (hnew : tlookup t s = none) (hsL : s ∈ L) :
    freshCount L (tinsert t s e) < freshCount L t := by
  have hsub : List.Sublist (L.dedup.filter (fun v => (tlookup (tinsert t s e) v).isNone))
      (L.dedup.filter (fun v => (tlookup t v).isNone)) := by
    refine List.monotone_filter_right _ ?_
    intro v hv
    by_cases hvs : v = s
    · subst hvs
      rw [tlookup_tinsert_self] at hv
      simp at hv
    · rwa [tlookup_tinsert_ne _ hvs] at hv
  refine Nat.lt_of_le_of_ne hsub.length_le ?_
  intro heq
  have hlists := hsub.eq_of_length heq
  have hsmem : s ∈ L.dedup.filter (fun v => (tlookup t v).isNone) := by
    refine List.mem_filter.mpr ⟨List.mem_dedup.mpr hsL, ?_⟩
    simp [hnew]
  rw [← hlists] at hsmem
  have := (List.mem_filter.mp hsmem).2
  rw [tlookup_tinsert_self] at this
  simp at this

/-- When every available action has a successor, the expansion loop never
raises. -/
theorem expandAll_isSome (P : AProblem σ α γ) (curr : σ) (gc : γ) :
    ∀ (ps : List α) (acc : List (γ × σ) × List (σ × Entry σ α γ)),
      (∀ p ∈ ps, (P.do_action curr p).isSome) →
      ∃ acc', expandAll P curr gc ps acc = some acc' := by
  intro ps
  induction ps with
  | nil => intro acc _; exact ⟨acc, rfl⟩
  | cons p ps ih =>
    intro acc hps
    obtain ⟨ns, hns⟩ := Option.isSome_iff_exists.mp (hps p (List.mem_cons_self p ps))
    have hstep : ∃ a1, expandStep P curr gc acc p = some a1 := by
      unfold expandStep
      rw [hns]
      dsimp only
      cases hl : tlookup acc.2 ns with
      | none => exact ⟨_, rfl⟩
      | some e =>
        dsimp only
        by_cases hle : e.f ≤ P.action_cost curr p + gc + P.heuristic ns
        · rw [if_pos hle]; exact ⟨_, rfl⟩
        · rw [if_neg hle]; exact ⟨_, rfl⟩
    obtain ⟨a1, ha1⟩ := hstep
    obtain ⟨acc', hacc'⟩ := ih a1 (fun p' hp' => hps p' (List.mem_cons_of_mem p hp'))
    refine ⟨acc', ?_⟩
    simp only [expandAll]
    rw [ha1]
    exact hacc'

/-- A recorded state stays recorded across the expansion loop. -/
theorem expandAll_lookup_mono (P : AProblem σ α γ) (curr : σ) (gc : γ)
    (ps : List α) (acc acc' : List (γ × σ) × List (σ × Entry σ α γ))
    (h : expandAll P curr gc ps acc = some acc') (v : σ)
    (hv : (tlookup acc.2 v).isSome) : (tlookup acc'.2 v).isSome := by
  refine expandAll_preserve P curr gc (fun a => (tlookup a.2 v).isSome) ps
    ?_ acc acc' hv h
  intro a p a' _ hq hs
  rcases expandStep_cases P curr gc a a' p hs with rfl | ⟨ns, -, -, hrev, -⟩
  · exact hq
  · rw [hrev]
    by_cases hvs : v = ns
    · subst hvs; rw [tlookup_tinsert_self]; rfl
    · rwa [tlookup_tinsert_ne _ hvs]

/-- One action of the expansion loop either changes nothing, or records a
state of `L` for the first time, or strictly decreases the sum of recorded
`g` values. -/
theorem expandStep_measure (P : AProblem σ α γ) (curr : σ) (gc : γ) (L : List σ)
    (acc acc' : List (γ × σ) × List (σ × Entry σ α γ)) (p : α)
    (hfh : FHInv P acc.2)
    (hns : ∀ ns, P.do_action curr p = some ns → ns ∈ L)
    (h : expandStep P curr gc acc p = some acc') :
    acc' = acc ∨ freshCount L acc'.2 < freshCount L acc.2 ∨
      (freshCount L acc'.2 = freshCount L acc.2 ∧ gSum acc'.2 < gSum acc.2) := by
  rcases expandStep_cases P curr gc acc acc' p h with rfl | ⟨ns, hdo, hq, hrev, hlt⟩
  · exact Or.inl rfl
  · cases hl : tlookup acc.2 ns with
    | none =>
      refine Or.inr (Or.inl ?_)
      rw [hrev]
      exact freshCount_tinsert_new L acc.2 ns _ hl (hns ns hdo)
    | some e =>
      refine Or.inr (Or.inr ⟨?_, ?_⟩)
      · rw [hrev]; exact freshCount_tinsert_mem L acc.2 ns _ (by simp [hl])
      · rw [hrev]
        refine gSum_tinsert_lt acc.2 ns e _ hl ?_
        have hflt := hlt e hl
        rw [hfh ns e hl] at hflt
        exact lt_of_add_lt_add_right hflt

/-- The whole expansion loop either changes nothing, or records a state of
`L` for the first time, or strictly decreases the sum of recorded `g`
values. -/
theorem expandAll_measure (P : AProblem σ α γ) (curr : σ) (gc : γ) (L : List σ) :
    ∀ (ps : List α) (acc acc' : List (γ × σ) × List (σ × Entry σ α γ)),
      FHInv P acc.2 →
      (∀ p ∈ ps, ∀ ns, P.do_action curr p = some ns → ns ∈ L) →
      expandAll P curr gc ps acc = some acc' →
      acc' = acc ∨ freshCount L acc'.2 < freshCount L acc.2 ∨
        (freshCount L acc'.2 = freshCount L acc.2 ∧ gSum acc'.2 < gSum acc.2) := by
  intro ps
  induction ps with
  | nil =>
    intro acc acc' _ _ h
    simp only [expandAll] at h
    cases h
    exact Or.inl rfl
  | cons p ps ih =>
    intro acc acc' hfh hns h
    simp only [expandAll] at h
    cases hst : expandStep P curr gc acc p with
    | none => rw [hst] at h; simp at h
    | some a1 =>
      rw [hst] at h
      dsimp only at h
      have hfh1 := (expandStep_improves P curr gc acc a1 p hst hfh).2
      have hd1 := expandStep_measure P curr gc L acc a1 p hfh
        (fun ns hd => hns p (List.mem_cons_self p ps) ns hd) hst
      have hd2 := ih a1 acc' hfh1 (fun p' hp' => hns p' (List.mem_cons_of_mem p hp')) h
      rcases hd1 with rfl | h1 | ⟨h1e, h1l⟩
      · exact hd2
      · rcases hd2 with rfl | h2 | ⟨h2e, h2l⟩
        · exact Or.inr (Or.inl h1)
        · exact Or.inr (Or.inl (lt_trans h2 h1))
        · exact Or.inr (Or.inl (by omega))
      · rcases hd2 with rfl | h2 | ⟨h2e, h2l⟩
        · exact Or.inr (Or.inr ⟨h1e, h1l⟩)
        · exact Or.inr (Or.inl (by omega))
        · exact Or.inr (Or.inr ⟨by omega, lt_trans h2l h1l⟩)

/-- In every running loop state the previously popped state (the current
`curr_state`) is recorded in the table. -/
theorem lastRecorded_runLS (P : AProblem σ α γ) (k : ℕ) :
    ∀ (q : List (γ × σ)) (rev : List (σ × Entry σ α γ)) (x : ℕ) (last : σ),
      runLS P k = .running q rev x last → (tlookup rev last).isSome := by
  refine runLS_ind P
    (fun ls => ∀ q rev x last, ls = .running q rev x last → (tlookup rev last).isSome)
    ?_ ?_ k
  · intro q rev x last h
    simp only [initLS, LS.running.injEq] at h
    obtain ⟨-, hrev, -, hlast⟩ := h
    rw [← hrev, ← hlast]
    simp [tlookup]
  · intro ls ih
    cases ls with
    | err => intro q rev x last h; simp [stepLS] at h
    | halted f l rv y => intro q rev x last h; simp [stepLS] at h
    | running q rev x last =>
      intro q2 rev2 x2 last2 h
      simp only [stepLS] at h
      rcases hpop : popMin (frontierLt P) q with - | ⟨⟨c, s⟩, q'⟩
      · rw [hpop] at h; simp at h
      · rw [hpop] at h
        dsimp only at h
        rcases hl : tlookup rev s with - | e
        · rw [hl] at h; simp at h
        · rw [hl] at h
          dsimp only at h
          by_cases hg : P.is_goal s = true
          · rw [if_pos hg] at h; simp at h
          · rw [if_neg hg] at h
            rcases hex : expandAll P s e.g (P.available_actions s) (q', rev) with - | ⟨q'', rev''⟩
            · rw [hex] at h; simp at h
            · rw [hex] at h
              dsimp only at h
              simp only [LS.running.injEq] at h
              obtain ⟨-, hrev2, -, hlast2⟩ := h
              rw [← hrev2, ← hlast2]
              exact expandAll_lookup_mono P s e.g (P.available_actions s)
                (q', rev) (q'', rev'') hex s (by simp [hl])

/-- Every running loop state of a search over a closed space `L` records
only states of `L`, with `g` values in the additive monoid generated by the
edge costs of `L`. -/
theorem space_runLS (P : AProblem σ α γ) (L : List σ) (hcl : ClosedSpace P L) (k : ℕ) :
    ∀ (q : List (γ × σ)) (rev : List (σ × Entry σ α γ)) (x : ℕ) (last : σ),
      runLS P k = .running q rev x last →
      (∀ kv ∈ rev, kv.1 ∈ L) ∧
      (∀ kv ∈ rev, kv.2.g ∈ AddSubmonoid.closure {c : γ | c ∈ costList P L}) := by
  refine runLS_ind P
    (fun ls => ∀ q rev x last, ls = .running q rev x last →
      (∀ kv ∈ rev, kv.1 ∈ L) ∧
      (∀ kv ∈ rev, kv.2.g ∈ AddSubmonoid.closure {c : γ | c ∈ costList P L}))
    ?_ ?_ k
  · intro q rev x last h
    simp only [initLS, LS.running.injEq] at h
    obtain ⟨-, hrev, -, -⟩ := h
    rw [← hrev]
    constructor
    · intro kv hkv
      simp only [List.mem_singleton] at hkv
      subst hkv
      exact hcl.1
    · intro kv hkv
      simp only [List.mem_singleton] at hkv
      subst hkv
      exact AddSubmonoid.zero_mem _
  · intro ls ih
    cases ls with
    | err => intro q rev x last h; simp [stepLS] at h
    | halted f l rv y => intro q rev x last h; simp [stepLS] at h
    | running q rev x last =>
      intro q2 rev2 x2 last2 h
      simp only [stepLS] at h
      rcases hpop : popMin (frontierLt P) q with - | ⟨⟨c, s⟩, q'⟩
      · rw [hpop] at h; simp at h
      · rw [hpop] at h
        dsimp only at h
        rcases hl : tlookup rev s with - | e
        · rw [hl] at h; simp at h
        · rw [hl] at h
          dsimp only at h
          by_cases hg : P.is_goal s = true
          · rw [if_pos hg] at h; simp at h
          · rw [if_neg hg] at h
            rcases hex : expandAll P s e.g (P.available_actions s) (q', rev) with - | ⟨q'', rev''⟩
            · rw [hex] at h; simp at h
            · rw [hex] at h
              dsimp only at h
              simp only [LS.running.injEq] at h
              obtain ⟨-, hrev2, -, -⟩ := h
              rw [← hrev2]
              have hprev := ih q rev x last rfl
              have hsL : s ∈ L := hprev.1 (s, e) (tlookup_mem rev s e hl)
              refine expandAll_preserve P s e.g
                (fun a => (∀ kv ∈ a.2, kv.1 ∈ L) ∧
                  (∀ kv ∈ a.2, kv.2.g ∈ AddSubmonoid.closure {c : γ | c ∈ costList P L}))
                (P.available_actions s) ?_ (q', rev) (q'', rev'') ⟨hprev.1, hprev.2⟩ hex
              intro a p a' hp hq hstp
              rcases expandStep_cases P s e.g a a' p hstp with rfl | ⟨ns, hdo, -, hrev1, -⟩
              · exact hq
              · constructor
                · intro kv hkv
                  rw [hrev1] at hkv
                  rcases mem_tinsert a.2 ns _ kv hkv with rfl | hm
                  · exact hcl.2 s hsL p hp ns hdo
                  · exact hq.1 kv hm
                · intro kv hkv
                  rw [hrev1] at hkv
                  rcases mem_tinsert a.2 ns _ kv hkv with rfl | hm
                  · have h1 : P.action_cost s p ∈ (P.available_actions s).map (P.action_cost s) :=
                      List.mem_map_of_mem _ hp
                    have h2 : (P.available_actions s).map (P.action_cost s) ∈
                        L.map (fun v => (P.available_actions v).map (P.action_cost v)) :=
                      List.mem_map_of_mem _ hsL
                    have h3 : P.action_cost s p ∈ costList P L :=
                      List.mem_join_of_mem h2 h1
                    have hgS : e.g ∈ AddSubmonoid.closure {c : γ | c ∈ costList P L} :=
                      hprev.2 (s, e) (tlookup_mem rev s e hl)
                    exact AddSubmonoid.add_mem _ (AddSubmonoid.subset_closure h3) hgS
                  · exact hq.2 kv hm

/-- One loop iteration from a running state either exits the loop or
strictly decreases the termination measure: the lexicographic product of
the number of unrecorded states of `L`, the sum of recorded `g` values, and
the frontier length. -/
theorem stepLS_progress (P : AProblem σ α γ) (hc : ∀ s a, 0 ≤ P.action_cost s a)
    (hdo : ∀ s a, a ∈ P.available_actions s → (P.do_action s a).isSome)
    (L : List σ) (hcl : ClosedSpace P L) (k : ℕ)
    (q : List (γ × σ)) (rev : List (σ × Entry σ α γ)) (x : ℕ) (last : σ)
    (hrun : runLS P k = .running q rev x last) :
    (∃ f t rv x', runLS P (k + 1) = .halted f t rv x') ∨
    (∃ q2 rev2 x2 last2, runLS P (k + 1) = .running q2 rev2 x2 last2 ∧
      (freshCount L rev2 < freshCount L rev ∨
       (freshCount L rev2 = freshCount L rev ∧ gSum rev2 < gSum rev) ∨
       (freshCount L rev2 = freshCount L rev ∧ gSum rev2 = gSum rev ∧
         q2.length < q.length))) := by
  have hstep : runLS P (k + 1) = stepLS P (runLS P k) := by
    unfold runLS
    rw [Function.iterate_succ_apply']
  rw [hrun] at hstep
  simp only [stepLS] at hstep
  rcases hpop : popMin (frontierLt P) q with - | ⟨⟨c, s⟩, q'⟩
  · rw [hpop] at hstep
    exact Or.inl ⟨false, last, rev, x, hstep⟩
  · rw [hpop] at hstep
    dsimp only at hstep
    obtain ⟨hfr, -, -, hfh⟩ := rinv_runLS P hc k q rev x last hrun
    obtain ⟨e, hl, -⟩ := hfr (c, s) (popMin_self_mem _ hpop)
    rw [hl] at hstep
    dsimp only at hstep
    by_cases hg : P.is_goal s = true
    · rw [if_pos hg] at hstep
      exact Or.inl ⟨true, s, rev, x + 1, hstep⟩
    · rw [if_neg hg] at hstep
      obtain ⟨⟨q2, rev2⟩, hexp⟩ := expandAll_isSome P s e.g (P.available_actions s)
        (q', rev) (fun p hp => hdo s p hp)
      rw [hexp] at hstep
      dsimp only at hstep
      have hspace := space_runLS P L hcl k q rev x last hrun
      have hsL : s ∈ L := hspace.1 (s, e) (tlookup_mem rev s e hl)
      have hmeas := expandAll_measure P s e.g L (P.available_actions s)
        (q', rev) (q2, rev2) hfh
        (fun p hp ns hd => hcl.2 s hsL p hp ns hd) hexp
      have hql : q'.length < q.length := by
        have hperm := (popMin_perm _ q _ q' hpop).length_eq
        simp only [List.length_cons] at hperm
        omega
      refine Or.inr ⟨q2, rev2, x + 1, s, hstep, ?_⟩
      rcases hmeas with heq | hlt | ⟨hfe, hgl⟩
      · simp only [Prod.mk.injEq] at heq
        obtain ⟨hq2, hrev2⟩ := heq
        subst hq2
        subst hrev2
        exact Or.inr (Or.inr ⟨rfl, rfl, hql⟩)
      · exact Or.inl hlt
      · exact Or.inr (Or.inl ⟨hfe, hgl⟩)

/-- On a finite closed state space with non-negative costs and a total
`do_action`, the `while` loop exits after finitely many iterations. -/
theorem runLS_halts (P : AProblem σ α γ) (hc : ∀ s a, 0 ≤ P.action_cost s a)
    (hdo : ∀ s a, a ∈ P.available_actions s → (P.do_action s a).isSome)
    (L : List σ) (hcl : ClosedSpace P L) :
    ∃ (k : ℕ) (f : Bool) (t : σ) (rev : List (σ × Entry σ α γ)) (x : ℕ),
      runLS P k = .halted f t rev x := by
  have hE : {c : γ | c ∈ costList P L}.IsPWO := (List.finite_toSet _).isPWO
  have hnonneg : ∀ c ∈ {c : γ | c ∈ costList P L}, 0 ≤ c := by
    intro cc hcc
    simp only [Set.mem_setOf_eq, costList, List.mem_join, List.mem_map] at hcc
    obtain ⟨l, ⟨s, -, rfl⟩, hmem⟩ := hcc
    simp only [List.mem_map] at hmem
    obtain ⟨a, -, rfl⟩ := hmem
    exact hc s a
  have hWF : (AddSubmonoid.closure {c : γ | c ∈ costList P L} :
      Set γ).IsWF := (hE.addSubmonoid_closure hnonneg).isWF
  have main : ∀ (F : ℕ) (g : γ),
      g ∈ (AddSubmonoid.closure {c : γ | c ∈ costList P L} : Set γ) →
      ∀ (n k : ℕ) (q : List (γ × σ)) (rev : List (σ × Entry σ α γ)) (x : ℕ) (last : σ),
        runLS P k = .running q rev x last → freshCount L rev = F → gSum rev = g →
        q.length = n →
        ∃ (k' : ℕ) (f : Bool) (t : σ) (rv : List (σ × Entry σ α γ)) (x' : ℕ),
          runLS P k' = .halted f t rv x' := by
    intro F
    induction F using Nat.strong_induction_on with
    | _ F ihF =>
      intro g hg
      refine @Set.WellFoundedOn.induction γ (fun a b => a < b)
        (AddSubmonoid.closure {c : γ | c ∈ costList P L} : Set γ) g hWF hg
        (fun gv => ∀ (n k : ℕ) (q : List (γ × σ)) (rev : List (σ × Entry σ α γ))
          (x : ℕ) (last : σ),
          runLS P k = .running q rev x last → freshCount L rev = F →
          gSum rev = gv → q.length = n →
          ∃ (k' : ℕ) (f : Bool) (t : σ) (rv : List (σ × Entry σ α γ)) (x' : ℕ),
            runLS P k' = .halted f t rv x') ?_
      intro g' hg' ihg
      intro n
      induction n using Nat.strong_induction_on with
      | _ n ihn =>
        intro k q rev x last hrun hF hG hN
        rcases stepLS_progress P hc hdo L hcl k q rev x last hrun with
          ⟨f, t, rv, x', hh⟩ | ⟨q2, rev2, x2, last2, hrun2, htri⟩
        · exact ⟨k + 1, f, t, rv, x', hh⟩
        · have hspace2 := space_runLS P L hcl (k + 1) q2 rev2 x2 last2 hrun2
          have hg2 : gSum rev2 ∈ (AddSubmonoid.closure {c : γ | c ∈ costList P L} :
              Set γ) := gSum_mem _ rev2 hspace2.2
          rcases htri with hlt | ⟨hfe, hgl⟩ | ⟨hfe, hge, hql⟩
          · exact ihF (freshCount L rev2) (by omega) (gSum rev2) hg2 q2.length
              (k + 1) q2 rev2 x2 last2 hrun2 rfl rfl rfl
          · exact ihg (gSum rev2) hg2 (by rw [← hG]; exact hgl) q2.length
              (k + 1) q2 rev2 x2 last2 hrun2 (by rw [hfe, hF]) rfl rfl
          · exact ihn q2.length (by omega) (k + 1) q2 rev2 x2 last2 hrun2
              (by rw [hfe, hF]) (by rw [hge, hG]) rfl
  have h0 : runLS P 0 = .running [(P.heuristic P.initial_state, P.initial_state)]
      [(P.initial_state, ⟨none, none, P.heuristic P.initial_state, 0⟩)]
      0 P.initial_state := rfl
  have hspace0 := space_runLS P L hcl 0 _ _ _ _ h0
  exact main (freshCount L [(P.initial_state,
      ⟨none, none, P.heuristic P.initial_state, 0⟩)])
    (gSum [(P.initial_state, ⟨none, none, P.heuristic P.initial_state, 0⟩)])
    (gSum_mem _ _ hspace0.2) 1 0 _ _ _ _ h0 rfl rfl rfl

/-- On a finite closed state space with non-negative costs and a total
`do_action`, `astar` returns a result given enough fuel (whether or not a
goal exists). -/
theorem astar_halts_some (P : AProblem σ α γ) (hc : ∀ s a, 0 ≤ P.action_cost s a)
    (hdo : ∀ s a, a ∈ P.available_actions s → (P.do_action s a).isSome)
    (L : List σ) (hcl : ClosedSpace P L) :
    ∃ (fuel : ℕ) (sol : List α) (x r : ℕ), astar P fuel = some (sol, x, r) := by
  obtain ⟨k, f, t, rev, x, hh⟩ := runLS_halts P hc hdo L hcl
  have hsome : (tlookup rev t).isSome := by
    obtain ⟨k0, q, x0, last, hk0, hstep⟩ := runLS_halted_transition P k f t rev x hh
    obtain ⟨-, hcases⟩ := stepLS_to_halted P q rev x0 last f t rev x hstep
    rcases hcases with ⟨-, -, hlast, -⟩ | ⟨-, -, -, c, q', e, -, hl⟩
    · rw [hlast]
      exact lastRecorded_runLS P k0 q rev x0 last hk0
    · simp [hl]
  obtain ⟨e, hl⟩ := Option.isSome_iff_exists.mp hsome
  have hti := tableInv_runLS P hc k rev (by rw [hh]; rfl)
  obtain ⟨n, tt, plan, hrec⟩ := hti.2.2 t e hl
  have hb := reconAux_fuel_bound rev hrec
  refine ⟨k, plan, x, rev.length, ?_⟩
  unfold astar
  rw [hh]
  dsimp only
  rw [hb]

end TerminationLemmas

/-! ## Claims about concrete runs and concrete transitions -/

/-- Claim C3: on the two-room cleaning world (robot at room 0, both rooms
dirty, actions Left/Suck/Right, uniform cost 1, heuristic = number of dirty
rooms) the search returns exactly `[Suck, Right, Suck]`, performs exactly 4
frontier pops, and records exactly 5 distinct states in the best-known-cost
table. -/
theorem astar_vacuum_scenario (fuel : ℕ) (h : 4 ≤ fuel) :
    astar VacuumProblem fuel = some (["Suck", "Right", "Suck"], 4, 5) :=
  astar_mono VacuumProblem (n := 4) (by decide) h

theorem astar_vacuum_scenario_witness :
    astar VacuumProblem 10 = some (["Suck", "Right", "Suck"], 4, 5) :=
  astar_vacuum_scenario 10 (by decide)

/-- Claim C1 (the code violates it): on a problem in which no goal state
exists at all, the frontier empties and the search returns the action
sequence leading to the last expanded state — here the nonempty list
`["go"]` — instead of the promised `None`. -/
theorem astar_unreachable_goal_returns_actions :
    (∀ s, NoGoalProblem.is_goal s = false) ∧
      astar NoGoalProblem 5 = some (["go"], 2, 2) :=
  ⟨fun _ => rfl, by decide⟩

/-- Claim C2: on every problem with finitely many reachable states (a
finite state list containing the initial state and closed under the
available actions), non-negative action costs, a `do_action` that succeeds
on every available action, and a non-negative admissible and consistent
heuristic, whenever some goal state is reachable the search returns a
result given enough fuel, and every returned action sequence is an
executable plan from the initial state to a goal state whose total
accumulated cost is minimal over all plans reaching any goal state. -/
theorem astar_admissible_consistent_optimal [DecidableEq σ] [DecidableEq α]
    [LinearOrderedCancelAddCommMonoid γ] (P : AProblem σ α γ)
    (hc : ∀ s a, 0 ≤ P.action_cost s a)
    (hdo : ∀ s a, a ∈ P.available_actions s → (P.do_action s a).isSome)
    (Hfin : ∃ L, ClosedSpace P L)
    (Hh0 : ∀ s, 0 ≤ P.heuristic s)
    (Hcons : ∀ s a s', a ∈ P.available_actions s → P.do_action s a = some s' →
      P.heuristic s ≤ P.action_cost s a + P.heuristic s')
    (Hadm : ∀ (s : σ) (π : List α) (t : σ) (c : γ), runPlan P s π = some (t, c) →
      P.is_goal t = true → P.heuristic s ≤ c)
    (Hreach : ∃ (π : List α) (t : σ) (c : γ),
      runPlan P P.initial_state π = some (t, c) ∧ P.is_goal t = true) :
    (∃ (fuel : ℕ) (sol : List α) (x r : ℕ), astar P fuel = some (sol, x, r)) ∧
    (∀ (fuel : ℕ) (sol : List α) (x r : ℕ), astar P fuel = some (sol, x, r) →
      ∃ (t : σ) (cs : γ), runPlan P P.initial_state sol = some (t, cs) ∧
        P.is_goal t = true ∧
        ∀ (π : List α) (t' : σ) (c' : γ),
          runPlan P P.initial_state π = some (t', c') →
          P.is_goal t' = true → cs ≤ c') := by
  obtain ⟨L, hcl⟩ := Hfin
  exact ⟨astar_halts_some P hc hdo L hcl,
    astar_sound_optimal P hc Hh0 Hcons Hadm Hreach⟩

theorem astar_admissible_consistent_optimal_witness :
    (∃ (fuel : ℕ) (sol : List Unit) (x r : ℕ),
      astar TinyProblem fuel = some (sol, x, r)) ∧
    (∀ (fuel : ℕ) (sol : List Unit) (x r : ℕ),
      astar TinyProblem fuel = some (sol, x, r) →
      ∃ (t : Bool) (cs : ℤ),
        runPlan TinyProblem TinyProblem.initial_state sol = some (t, cs) ∧
        TinyProblem.is_goal t = true ∧
        ∀ (π : List Unit) (t' : Bool) (c' : ℤ),
          runPlan TinyProblem TinyProblem.initial_state π = some (t', c') →
          TinyProblem.is_goal t' = true → cs ≤ c') :=
  astar_admissible_consistent_optimal TinyProblem (by decide) (by decide)
    ⟨[false, true], by decide, by decide⟩ (by decide) (by decide)
    (fun s π t c hr _ => runPlan_cost_nonneg TinyProblem (by decide) s π t c hr)
    ⟨[()], true, 1, by decide, rfl⟩

/-- Claim C4: whenever the initial state already satisfies `is_goal`, the
search returns the empty action sequence after a single frontier pop with
the initial state as the only recorded state, generating no successors. -/
theorem astar_initial_goal_empty_plan [DecidableEq σ] [LinearOrder γ] [AddCommMonoid γ]
    (P : AProblem σ α γ) (hgoal : P.is_goal P.initial_state = true)
    (fuel : ℕ) (hfuel : 1 ≤ fuel) :
    astar P fuel = some ([], 1, 1) := by
  have h1 : runLS P 1 =
      .halted true P.initial_state
        [(P.initial_state, ⟨none, none, P.heuristic P.initial_state, 0⟩)] 1 := by
    unfold runLS
    rw [Function.iterate_one]
    simp [stepLS, initLS, popMin, tlookup, hgoal]
  have h2 : astar P 1 = some ([], 1, 1) := by
    unfold astar
    rw [h1]
    simp [reconAux, tlookup]
  exact astar_mono P h2 hfuel

theorem astar_initial_goal_empty_plan_witness :
    TrivialGoalProblem.is_goal TrivialGoalProblem.initial_state = true ∧
      astar TrivialGoalProblem 3 = some ([], 1, 1) :=
  ⟨rfl, astar_initial_goal_empty_plan TrivialGoalProblem rfl 3 (by decide)⟩

/-- Claim C7: the search is deterministic — two invocations on the same
problem value return identical results (the embedding of the source is a
pure function of the problem, which itself is assumed to consist of pure
operations, so this is definitional). -/
theorem astar_deterministic [DecidableEq σ] [LinearOrder γ] [AddCommMonoid γ]
    (P : AProblem σ α γ) (fuel : ℕ) (r₁ r₂ : Option (List α × ℕ × ℕ))
    (h₁ : astar P fuel = r₁) (h₂ : astar P fuel = r₂) : r₁ = r₂ :=
  h₁ ▸ h₂

theorem astar_deterministic_witness :
    (some (["Suck", "Right", "Suck"], 4, 5) : Option (List String × ℕ × ℕ)) =
      some (["Suck", "Right", "Suck"], 4, 5) :=
  astar_deterministic VacuumProblem 10 _ _ (by decide) (by decide)

/-- Claim C8 fails on `PuzzleProblem`: at the goal grid the blank is at
`(0,0)` and `down` is not an available action, yet `do_action` returns a
state (the blank swapped with the wrapped-around cell `(2,0)` by Python's
negative indexing) instead of failing. -/
theorem puzzle_do_action_invalid_counterexample :
    puzzle_available_actions [[0, 1, 2], [3, 4, 5], [6, 7, 8]] = some ["up", "left"] ∧
      puzzle_do_action [[0, 1, 2], [3, 4, 5], [6, 7, 8]] "down" =
        some [[6, 1, 2], [3, 4, 5], [0, 7, 8]] := by
  constructor
  · decide
  · decide

/-- Claim C8, amended: `VacuumProblem.do_action` raises `Invalid action` on
every action outside its vocabulary, but `PuzzleProblem.do_action` does not
guarantee failure on unavailable actions: an unavailable `down` (or `right`)
wraps around via negative indexing and returns a state, an unavailable `up`
(or `left`) raises an `IndexError` rather than an `InvalidAction` error,
and an unrecognized action label returns the state unchanged. -/
theorem do_action_invalid_amended :
    (∀ (s : ℤ × List Bool) (a : String), a ∉ ["Left", "Suck", "Right"] →
      vacuum_do_action s a = none) ∧
    (puzzle_do_action [[0, 1, 2], [3, 4, 5], [6, 7, 8]] "down" =
      some [[6, 1, 2], [3, 4, 5], [0, 7, 8]]) ∧
    (puzzle_available_actions [[1, 2, 3], [4, 5, 6], [7, 8, 0]] = some ["down", "right"] ∧
      puzzle_do_action [[1, 2, 3], [4, 5, 6], [7, 8, 0]] "up" = none) ∧
    (puzzle_do_action [[0, 1, 2], [3, 4, 5], [6, 7, 8]] "Suck" =
      some [[0, 1, 2], [3, 4, 5], [6, 7, 8]]) := by
  refine ⟨fun s a ha => ?_, by decide, ⟨by decide, by decide⟩, by decide⟩
  simp only [List.mem_cons, List.not_mem_nil, or_false, not_or] at ha
  obtain ⟨h1, h2, h3⟩ := ha
  simp [vacuum_do_action, h1, h2, h3]

theorem do_action_invalid_amended_witness :
    (("Jump" : String) ∉ ["Left", "Suck", "Right"]) ∧
      vacuum_do_action (0, [true, true]) "Jump" = none :=
  ⟨by decide, do_action_invalid_amended.1 (0, [true, true]) "Jump" (by decide)⟩

/-- Claim C5: throughout any single search invocation the best-known-cost
table never shrinks — from each loop iteration to the next every recorded
state stays recorded, and an entry is overwritten only by one with strictly
smaller `f` and strictly smaller `g`; moreover, when the newly computed `f`
is not strictly smaller than the recorded one, the processing of that
successor leaves both the table and the frontier unchanged. -/
theorem astar_table_never_shrinks [DecidableEq σ] [LinearOrderedCancelAddCommMonoid γ]
    (P : AProblem σ α γ) :
    (∀ (k : ℕ) (rev rev' : List (σ × Entry σ α γ)),
      tableOf (runLS P k) = some rev → tableOf (runLS P (k + 1)) = some rev' →
      TableImproves rev rev') ∧
    (∀ (curr : σ) (gc : γ) (p : α) (q : List (γ × σ)) (rev : List (σ × Entry σ α γ))
      (ns : σ) (e : Entry σ α γ),
      P.do_action curr p = some ns → tlookup rev ns = some e →
      e.f ≤ P.action_cost curr p + gc + P.heuristic ns →
      expandStep P curr gc (q, rev) p = some (q, rev)) := by
  constructor
  · intro k rev rev' h h'
    have hfh := FHInv_runLS P k rev h
    have hstep : runLS P (k + 1) = stepLS P (runLS P k) := by
      unfold runLS
      rw [Function.iterate_succ_apply']
    rw [hstep] at h'
    exact stepLS_improves P (runLS P k) rev rev' h hfh h'
  · intro curr gc p q rev ns e hdo hl hle
    simp only [expandStep, hdo, hl, if_pos hle]

theorem astar_table_never_shrinks_witness :
    TableImproves
      [(((0 : ℤ), [true, true]), (⟨none, none, 2, 0⟩ : Entry (ℤ × List Bool) String ℤ))]
      [(((0 : ℤ), [true, true]), (⟨none, none, 2, 0⟩ : Entry (ℤ × List Bool) String ℤ)),
        ((0, [false, true]), ⟨some (0, [true, true]), some "Suck", 2, 1⟩),
        ((1, [true, true]), ⟨some (0, [true, true]), some "Right", 3, 1⟩)] ∧
    expandStep VacuumProblem (0, [true, true]) 0
      ([], [(((0 : ℤ), [true, true]), (⟨none, none, 2, 0⟩ : Entry (ℤ × List Bool) String ℤ))])
      "Left" =
      some ([], [(((0 : ℤ), [true, true]), (⟨none, none, 2, 0⟩ : Entry (ℤ × List Bool) String ℤ))]) :=
  ⟨(astar_table_never_shrinks VacuumProblem).1 0 _ _ (by decide) (by decide),
    (astar_table_never_shrinks VacuumProblem).2 (0, [true, true]) 0 "Left" []
      _ (0, [true, true]) ⟨none, none, 2, 0⟩ (by decide) (by decide) (by decide)⟩

/-- Claim C6: for a problem with non-negative action costs, at every point
during a search invocation the initial state's record has the sentinel
`None` as predecessor, it is the only record with that property, and a
terminating path reconstruction stops exactly at this record (its terminal
state is the initial state). -/
theorem astar_initial_sentinel [DecidableEq σ] [LinearOrderedCancelAddCommMonoid γ]
    (P : AProblem σ α γ) (hc : ∀ s a, 0 ≤ P.action_cost s a) (k : ℕ)
    (rev : List (σ × Entry σ α γ)) (h : tableOf (runLS P k) = some rev) :
    (∃ e, tlookup rev P.initial_state = some e ∧ e.pred = none) ∧
    (∀ s e, tlookup rev s = some e → e.pred = none → s = P.initial_state) ∧
    (∀ (s : σ) (n : ℕ) (t : σ) (plan : List α),
      reconAux rev s n = some (t, plan) → t = P.initial_state) := by
  have hinv := initRecord_runLS P hc k rev h
  refine ⟨⟨_, hinv.1, rfl⟩, hinv.2.1, ?_⟩
  intro s n t plan hr
  obtain ⟨e, he, hp⟩ := reconAux_terminal rev n s t plan hr
  exact hinv.2.1 t e he hp

theorem astar_initial_sentinel_witness :
    (∃ e, tlookup
        [(((0 : ℤ), [true, true]), (⟨none, none, 2, 0⟩ : Entry (ℤ × List Bool) String ℤ)),
          ((0, [false, true]), ⟨some (0, [true, true]), some "Suck", 2, 1⟩),
          ((1, [true, true]), ⟨some (0, [true, true]), some "Right", 3, 1⟩)]
        VacuumProblem.initial_state = some e ∧ e.pred = none) ∧
    (∀ s e, tlookup
        [(((0 : ℤ), [true, true]), (⟨none, none, 2, 0⟩ : Entry (ℤ × List Bool) String ℤ)),
          ((0, [false, true]), ⟨some (0, [true, true]), some "Suck", 2, 1⟩),
          ((1, [true, true]), ⟨some (0, [true, true]), some "Right", 3, 1⟩)] s = some e →
      e.pred = none → s = VacuumProblem.initial_state) ∧
    (∀ (s : ℤ × List Bool) (n : ℕ) (t : ℤ × List Bool) (plan : List String),
      reconAux
        [(((0 : ℤ), [true, true]), (⟨none, none, 2, 0⟩ : Entry (ℤ × List Bool) String ℤ)),
          ((0, [false, true]), ⟨some (0, [true, true]), some "Suck", 2, 1⟩),
          ((1, [true, true]), ⟨some (0, [true, true]), some "Right", 3, 1⟩)] s n =
        some (t, plan) → t = VacuumProblem.initial_state) :=
  astar_initial_sentinel VacuumProblem (fun _ _ => zero_le_one) 1 _ (by decide)

/-- Claim C10: whatever the heuristic, if the search loop exits through the
goal `break` (it popped a state satisfying `is_goal`), the action sequence
`astar` returns is executable — every step's action is among the available
actions of the state it is applied to — and it leads from the initial state
to the popped goal state. -/
theorem astar_returned_plan_executable [DecidableEq σ] [DecidableEq α]
    [LinearOrderedCancelAddCommMonoid γ]
    (P : AProblem σ α γ) (hc : ∀ s a, 0 ≤ P.action_cost s a)
    (fuel : ℕ) (t : σ) (rev : List (σ × Entry σ α γ)) (x : ℕ)
    (h : runLS P fuel = .halted true t rev x) :
    P.is_goal t = true ∧
    ∃ plan c, astar P fuel = some (plan, x, rev.length) ∧
      runPlan P P.initial_state plan = some (t, c) := by
  obtain ⟨hg, hsome⟩ := haltedTrue_runLS P fuel t rev x h
  cases he : tlookup rev t with
  | none => rw [he] at hsome; simp at hsome
  | some e =>
    have hti : TableInv P rev := tableInv_runLS P hc fuel rev (by rw [h]; rfl)
    obtain ⟨n, t', plan, hrec⟩ := hti.2.2 t e he
    have hrecb := reconAux_fuel_bound rev hrec
    obtain ⟨ht', c, hrun, -⟩ :=
      recon_valid_plan P rev hti.2.1 (rev.length + 1) t t' plan e he hrecb
    subst ht'
    refine ⟨hg, plan, c, ?_, hrun⟩
    simp only [astar, h, hrecb]

theorem astar_returned_plan_executable_witness :
    VacuumProblem.is_goal ((1 : ℤ), [false, false]) = true ∧
    ∃ plan c, astar VacuumProblem 4 = some (plan, 4, 5) ∧
      runPlan VacuumProblem VacuumProblem.initial_state plan =
        some (((1 : ℤ), [false, false]), c) :=
  astar_returned_plan_executable VacuumProblem (fun _ _ => zero_le_one) 4
    (1, [false, false])
    [(((0 : ℤ), [true, true]), (⟨none, none, 2, 0⟩ : Entry (ℤ × List Bool) String ℤ)),
      ((0, [false, true]), ⟨some (0, [true, true]), some "Suck", 2, 1⟩),
      ((1, [true, true]), ⟨some (0, [true, true]), some "Right", 3, 1⟩),
      ((1, [false, true]), ⟨some (0, [false, true]), some "Right", 3, 2⟩),
      ((1, [false, false]), ⟨some (1, [false, true]), some "Suck", 3, 3⟩)]
    4 (by decide)

end AStarVerif
